import Mathlib

/-!
Verification development for the Qualtran `cirq_interop._bloq_to_cirq` module:
a shallow embedding of the bloq-to-cirq conversion layer (the `BloqAsCirqGate`
shim, the graph-to-circuit exporter `_cbloq_to_cirq_circuit` and its helpers
`_track_soq_name_changes` / `_bloq_to_cirq_op`, and the diagram-info wire
symbol translation `_wire_symbol_to_cirq_diagram_info`), together with
theorems settling the specification's claims about it.
-/

namespace Qualtran

/-! ## Register / signature data model (`qualtran._infra.registers`)

`Side` is a flag enum in the source (`LEFT = 1`, `RIGHT = 2`, `THRU = 3`);
`lefts()` selects registers whose side has the LEFT bit (LEFT or THRU) and
`rights()` those with the RIGHT bit (RIGHT or THRU). -/

inductive Side where
  | left
  | right
  | thru
deriving DecidableEq, Repr

/-- A register dtype; the exporter only inspects whether it is a quantum
dtype (`isinstance(dtype, QDType)`), so the embedding records that bit and
an abstract identifier. -/
structure DType where
  isQuantum : Bool
  tag : Nat := 0
deriving DecidableEq, Repr

structure Register where
  name : String
  dtype : DType
  shape : List Nat
  bitsize : Nat
  side : Side
deriving DecidableEq, Repr

/-- `Signature.lefts()`: registers whose side includes the LEFT flag. -/
def leftsOf (sig : List Register) : List Register :=
  sig.filter (fun r => decide (r.side ≠ Side.right))

/-- `Signature.rights()`: registers whose side includes the RIGHT flag. -/
def rightsOf (sig : List Register) : List Register :=
  sig.filter (fun r => decide (r.side ≠ Side.left))

/-- `Register.all_idxs()`: `itertools.product(*(range(s) for s in shape))`,
first index slowest. -/
def allIdxs : List Nat → List (List Nat)
  | [] => [[]]
  | n :: rest => (List.range n).flatMap (fun i => (allIdxs rest).map (i :: ·))

/-- Names of a signature in order of first occurrence (the iteration order of
the per-name dict built by `Signature.groups()`). -/
def uniqNamesAux : List String → List String → List String
  | [], _ => []
  | n :: rest, seen =>
      if n ∈ seen then uniqNamesAux rest seen else n :: uniqNamesAux rest (n :: seen)

def uniqNames (ns : List String) : List String := uniqNamesAux ns []

/-- `Signature.groups()`: registers bucketed by name, bucket order given by
first occurrence of the name, each bucket in signature order. -/
def signatureGroups (sig : List Register) : List (String × List Register) :=
  (uniqNames (sig.map (·.name))).map (fun n => (n, sig.filter (fun r => decide (r.name = n))))

/-! ## The wrapped bloq, as seen by `BloqAsCirqGate`

The shim only consults: the signature, whether the bloq is already a
`cirq.Gate` (the constructor's `assert`), the outcome of
`bloq.decompose_bloq()` (success, `DecomposeNotImplementedError`,
`DecomposeTypeError`, or a plain `NotImplementedError`), the result of
`bloq.tensor_contract()` (only its `ndim` is inspected), and `bloq.adjoint()`.
The embedding records those observations as fields. -/

inductive DecomposeRes where
  | ok
  | notImplErr
  | typeErr
  | plainNotImpl
deriving DecidableEq, Repr

/-- An abstract numpy array as returned by `tensor_contract`; only `ndim` is
inspected by the code under verification, `tag` keeps distinct tensors apart. -/
structure Tensor where
  ndim : Nat
  tag : Nat := 0
deriving DecidableEq, Repr

structure Bloq where
  signature : List Register
  isCirqGate : Bool
  decomposeRes : DecomposeRes
  tensorContract : Tensor
deriving DecidableEq, Repr

structure BloqAsCirqGate where
  bloq : Bloq
deriving DecidableEq, Repr

/-! ## `BloqAsCirqGate.__init__` -/

inductive InitRes where
  | ok (g : BloqAsCirqGate)
  | assertionError
  | valueError (name : String) (regs : List Register)
deriving DecidableEq, Repr

/-- `BloqAsCirqGate.__init__`: `assert not isinstance(bloq, cirq.Gate)`, then
for each name group with more than one register raise a `ValueError` whose
message shows the offending registers; otherwise store the bloq. -/
def bloqAsCirqGateInit (b : Bloq) : InitRes :=
  if b.isCirqGate then .assertionError
  else
    match (signatureGroups b.signature).find? (fun g => decide (1 < g.2.length)) with
    | some g => .valueError g.1 g.2
    | none => .ok ⟨b⟩

/-! ## `BloqAsCirqGate._unitary_` -/

inductive UnitaryRes where
  | notImplemented
  | matrix (t : Tensor)
  | assertionError
deriving DecidableEq, Repr

def allThru (sig : List Register) : Bool :=
  sig.all (fun r => decide (r.side = Side.thru))

/-- `BloqAsCirqGate._unitary_`: if every register is THRU, try
`decompose_bloq()`; on success return `NotImplemented` (defer to cirq's
decomposition strategies); on `DecomposeNotImplementedError` /
`DecomposeTypeError` fall back to `tensor_contract()` asserting `ndim == 2`;
on a plain `NotImplementedError` return `NotImplemented`.  With any non-THRU
register, return `NotImplemented`. -/
def bloqAsCirqGateUnitary (g : BloqAsCirqGate) : UnitaryRes :=
  if allThru g.bloq.signature then
    match g.bloq.decomposeRes with
    | .ok => .notImplemented
    | .plainNotImpl => .notImplemented
    | .notImplErr =>
        if g.bloq.tensorContract.ndim = 2 then .matrix g.bloq.tensorContract
        else .assertionError
    | .typeErr =>
        if g.bloq.tensorContract.ndim = 2 then .matrix g.bloq.tensorContract
        else .assertionError
  else .notImplemented

/-! ## `BloqAsCirqGate.__pow__` -/

inductive PowRes where
  | selfGate (g : BloqAsCirqGate)
  | adjointOfBloq (b : Bloq)
  | powerOf (base : Bloq) (baseAdjointed : Bool) (exp : Nat)
deriving DecidableEq, Repr

/-- `BloqAsCirqGate.__pow__`: power 1 returns `self`; power -1 returns
`self.bloq.adjoint()`; otherwise `Power(bloq if power > 0 else
bloq.adjoint(), abs(power))`. -/
def bloqAsCirqGatePow (g : BloqAsCirqGate) (power : Int) : PowRes :=
  if power = 1 then .selfGate g
  else if power = -1 then .adjointOfBloq g.bloq
  else .powerOf g.bloq (decide (¬ 0 < power)) power.natAbs

/-! ## Claims C2, C3, C4, C10 -/

/-- C2: `BloqAsCirqGate._unitary_` returns a concrete matrix only when every
register of the wrapped bloq's signature is THRU and the bloq declares no
decomposition (`decompose_bloq` raises `DecomposeNotImplementedError` or
`DecomposeTypeError`); the returned matrix is the bloq's direct tensor
contraction, validated to have rank exactly 2.  If any register is non-THRU,
or a decomposition exists, the result is the `NotImplemented` sentinel. -/
theorem unitary_matrix_iff_thru_and_no_decomposition (g : BloqAsCirqGate) (t : Tensor) :
    (bloqAsCirqGateUnitary g = .matrix t →
      allThru g.bloq.signature = true ∧
      (g.bloq.decomposeRes = .notImplErr ∨ g.bloq.decomposeRes = .typeErr) ∧
      t = g.bloq.tensorContract ∧ t.ndim = 2) ∧
    ((allThru g.bloq.signature = false ∨ g.bloq.decomposeRes = .ok) →
      bloqAsCirqGateUnitary g = .notImplemented) := by
  unfold bloqAsCirqGateUnitary
  constructor
  · intro h
    by_cases hthru : allThru g.bloq.signature
    · simp only [hthru, if_true] at h
      cases hd : g.bloq.decomposeRes <;> simp only [hd] at h
      · cases h
      · by_cases hnd : g.bloq.tensorContract.ndim = 2
        · simp only [hnd, if_true] at h
          cases h
          exact ⟨hthru, Or.inl rfl, rfl, hnd⟩
        · simp only [hnd, if_false] at h
          cases h
      · by_cases hnd : g.bloq.tensorContract.ndim = 2
        · simp only [hnd, if_true] at h
          cases h
          exact ⟨hthru, Or.inr rfl, rfl, hnd⟩
        · simp only [hnd, if_false] at h
          cases h
      · cases h
    · simp only [hthru, if_false] at h
      cases h
  · intro h
    rcases h with h | h
    · simp [h]
    · by_cases hthru : allThru g.bloq.signature <;> simp [h, hthru]

def qbitDType : DType := ⟨true, 0⟩

def thruReg : Register := ⟨"q", qbitDType, [], 1, Side.thru⟩

def leftOnlyReg : Register := ⟨"junk", qbitDType, [], 2, Side.left⟩

def bloqNoDecomp : Bloq := ⟨[thruReg], false, .notImplErr, ⟨2, 0⟩⟩

def bloqLeftOnly : Bloq := ⟨[leftOnlyReg], false, .notImplErr, ⟨1, 0⟩⟩

/-- Witness for C2 at concrete inputs: an all-THRU bloq without decomposition
yields its rank-2 tensor, and a bloq with a LEFT-only register yields
`NotImplemented`. -/
theorem unitary_matrix_iff_thru_and_no_decomposition_witness :
    (allThru bloqNoDecomp.signature = true ∧
      (bloqNoDecomp.decomposeRes = .notImplErr ∨ bloqNoDecomp.decomposeRes = .typeErr) ∧
      (⟨2, 0⟩ : Tensor) = bloqNoDecomp.tensorContract ∧ (2 : Nat) = 2) ∧
    bloqAsCirqGateUnitary ⟨bloqLeftOnly⟩ = .notImplemented :=
  ⟨(unitary_matrix_iff_thru_and_no_decomposition ⟨bloqNoDecomp⟩ ⟨2, 0⟩).1 (by decide),
   (unitary_matrix_iff_thru_and_no_decomposition ⟨bloqLeftOnly⟩ ⟨1, 0⟩).2 (Or.inl (by decide))⟩

/-- C3: `BloqAsCirqGate.__pow__` — power 1 returns the shim itself; power -1
returns the wrapped bloq's adjoint; any other positive power `n` returns a
`Power` construct wrapping the bloq with exponent `|n|`, and any other
negative power wraps the bloq's adjoint with exponent `|n|`. -/
theorem pow_spec (g : BloqAsCirqGate) (n : Int) :
    bloqAsCirqGatePow g 1 = .selfGate g ∧
    bloqAsCirqGatePow g (-1) = .adjointOfBloq g.bloq ∧
    (n ≠ 1 → 0 < n → bloqAsCirqGatePow g n = .powerOf g.bloq false n.natAbs) ∧
    (n ≠ -1 → n < 0 → bloqAsCirqGatePow g n = .powerOf g.bloq true n.natAbs) := by
  refine ⟨by simp [bloqAsCirqGatePow], by simp [bloqAsCirqGatePow], ?_, ?_⟩
  · intro h1 hpos
    have h2 : n ≠ -1 := by omega
    simp [bloqAsCirqGatePow, h1, h2, hpos]
  · intro hm1 hneg
    have h1 : n ≠ 1 := by omega
    have h3 : ¬ 0 < n := by omega
    simp [bloqAsCirqGatePow, h1, hm1, h3]

/-- Witness for C3 at concrete powers 2 and -3. -/
theorem pow_spec_witness :
    bloqAsCirqGatePow ⟨bloqNoDecomp⟩ 2 = .powerOf bloqNoDecomp false 2 ∧
    bloqAsCirqGatePow ⟨bloqNoDecomp⟩ (-3) = .powerOf bloqNoDecomp true 3 :=
  ⟨(pow_spec ⟨bloqNoDecomp⟩ 2).2.2.1 (by decide) (by decide),
   (pow_spec ⟨bloqNoDecomp⟩ (-3)).2.2.2 (by decide) (by decide)⟩

theorem mem_uniqNamesAux (ns : List String) (seen : List String) (n : String) :
    n ∈ uniqNamesAux ns seen ↔ n ∈ ns ∧ n ∉ seen := by
  induction ns generalizing seen with
  | nil => simp [uniqNamesAux]
  | cons m rest ih =>
    by_cases hm : m ∈ seen
    · rw [uniqNamesAux, if_pos hm, ih]
      constructor
      · rintro ⟨h1, h2⟩
        exact ⟨List.mem_cons_of_mem _ h1, h2⟩
      · rintro ⟨h1, h2⟩
        rcases List.mem_cons.mp h1 with rfl | h1
        · exact absurd hm h2
        · exact ⟨h1, h2⟩
    · rw [uniqNamesAux, if_neg hm, List.mem_cons, ih]
      constructor
      · rintro (rfl | ⟨h1, h2⟩)
        · exact ⟨List.mem_cons_self _ _, hm⟩
        · refine ⟨List.mem_cons_of_mem _ h1, ?_⟩
          intro hc
          exact h2 (List.mem_cons_of_mem _ hc)
      · rintro ⟨h1, h2⟩
        rcases List.mem_cons.mp h1 with rfl | h1
        · exact Or.inl rfl
        · by_cases hn : n = m
          · exact Or.inl hn
          · refine Or.inr ⟨h1, ?_⟩
            intro hc
            rcases List.mem_cons.mp hc with h | h
            · exact hn h
            · exact h2 h

theorem mem_uniqNames (ns : List String) (n : String) :
    n ∈ uniqNames ns ↔ n ∈ ns := by
  simp [uniqNames, mem_uniqNamesAux]

/-- C4: constructing the shim for a non-`cirq.Gate` bloq whose signature has a
name group with more than one register fails with a `ValueError` that carries
the offending registers (all sharing the offending name, all drawn from the
signature); without such a group the construction succeeds and stores the
bloq. -/
theorem init_rejects_duplicate_register_groups (b : Bloq) :
    b.isCirqGate = false →
    ((∃ p ∈ signatureGroups b.signature, 1 < p.2.length) →
      ∃ name regs, bloqAsCirqGateInit b = .valueError name regs ∧
        1 < regs.length ∧ (∀ r ∈ regs, r.name = name) ∧ (∀ r ∈ regs, r ∈ b.signature)) ∧
    ((∀ p ∈ signatureGroups b.signature, p.2.length ≤ 1) →
      bloqAsCirqGateInit b = .ok ⟨b⟩) := by
  intro hgate
  constructor
  · intro hex
    have hfind : ((signatureGroups b.signature).find?
        (fun g => decide (1 < g.2.length))).isSome := by
      rcases hex with ⟨p, hp, hlen⟩
      exact List.find?_isSome.mpr ⟨p, hp, by simpa using hlen⟩
    rcases Option.isSome_iff_exists.mp hfind with ⟨g, hg⟩
    refine ⟨g.1, g.2, ?_, ?_, ?_, ?_⟩
    · simp [bloqAsCirqGateInit, hgate, hg]
    · have := List.find?_some hg
      simpa using this
    · have hmem := List.mem_of_find?_eq_some hg
      rcases List.mem_map.mp (by simpa [signatureGroups] using hmem) with ⟨n, _, hn⟩
      intro r hr
      subst hn
      have hname := List.of_mem_filter hr
      simpa using hname
    · intro r hr
      have hmem := List.mem_of_find?_eq_some hg
      rcases List.mem_map.mp (by simpa [signatureGroups] using hmem) with ⟨n, _, hn⟩
      subst hn
      exact List.mem_of_mem_filter hr
  · intro hall
    have hfind : (signatureGroups b.signature).find?
        (fun g => decide (1 < g.2.length)) = none := by
      apply List.find?_eq_none.mpr
      intro p hp
      have := hall p hp
      simpa using Nat.not_lt.mpr this
    simp [bloqAsCirqGateInit, hgate, hfind]

def dupReg1 : Register := ⟨"x", qbitDType, [], 1, Side.left⟩

def dupReg2 : Register := ⟨"x", qbitDType, [], 1, Side.right⟩

def bloqDupNames : Bloq := ⟨[dupReg1, dupReg2], false, .notImplErr, ⟨2, 0⟩⟩

/-- Witness for C4: a bloq with two same-named registers fails construction
with a `ValueError` naming them, and a bloq with distinct names succeeds. -/
theorem init_rejects_duplicate_register_groups_witness :
    (∃ name regs, bloqAsCirqGateInit bloqDupNames = .valueError name regs ∧
      1 < regs.length ∧ (∀ r ∈ regs, r.name = name) ∧ (∀ r ∈ regs, r ∈ bloqDupNames.signature)) ∧
    bloqAsCirqGateInit bloqNoDecomp = .ok ⟨bloqNoDecomp⟩ :=
  ⟨((init_rejects_duplicate_register_groups bloqDupNames) (by decide)).1
      ⟨("x", [dupReg1, dupReg2]), by decide, by decide⟩,
   ((init_rejects_duplicate_register_groups bloqNoDecomp) (by decide)).2 (by decide)⟩

/-- C10: the shim constructor's `assert not isinstance(bloq, cirq.Gate)` fires
exactly on bloqs that already satisfy cirq's gate interface; for bloqs that
are not cirq gates the assertion branch is unreachable. -/
theorem init_assert_not_cirq_gate (b : Bloq) :
    (b.isCirqGate = true → bloqAsCirqGateInit b = .assertionError) ∧
    (b.isCirqGate = false → bloqAsCirqGateInit b ≠ .assertionError) := by
  constructor
  · intro h
    simp [bloqAsCirqGateInit, h]
  · intro h
    unfold bloqAsCirqGateInit
    rw [h]
    simp only [Bool.false_eq_true, if_false]
    cases hfind : (signatureGroups b.signature).find? (fun g => decide (1 < g.2.length)) with
    | none => simp
    | some g => simp

def bloqIsGate : Bloq := ⟨[thruReg], true, .notImplErr, ⟨2, 0⟩⟩

/-- Witness for C10: a cirq-gate bloq trips the assertion, a plain bloq does
not. -/
theorem init_assert_not_cirq_gate_witness :
    bloqAsCirqGateInit bloqIsGate = .assertionError ∧
    bloqAsCirqGateInit bloqNoDecomp ≠ .assertionError :=
  ⟨(init_assert_not_cirq_gate bloqIsGate).1 (by decide),
   (init_assert_not_cirq_gate bloqNoDecomp).2 (by decide)⟩

/-! ## `_wire_symbol_to_cirq_diagram_info` -/

/-- Wire symbol kinds from `qualtran.drawing` as consumed by
`_wire_symbol_to_cirq_diagram_info`: `Circle(filled)`, `TextBox(text)`,
`RarrowTextBox(text)`, `LarrowTextBox(text)`, `ModPlus`.  The `otherSymbol`
constructor is Modelled from the spec: the drawing module (not under `src/`)
declares further `WireSymbol` subclasses, which this function does not
handle. -/
inductive WireSymbol where
  | circle (filled : Bool)
  | textBox (text : String)
  | rarrowTextBox (text : String)
  | larrowTextBox (text : String)
  | modPlus
  | otherSymbol (descr : String)
deriving DecidableEq, Repr

/-- `_qualtran_wire_symbols_to_cirq_text`: filled circle to `@`, unfilled
circle to `(0)`, the three text-box kinds to their literal text, `ModPlus` to
`X`; any other symbol kind raises `NotImplementedError("Unknown cirq version
of ...")`. -/
def wireSymbolToCirqText : WireSymbol → Except String String
  | .circle filled => if filled then .ok "@" else .ok "(0)"
  | .textBox t => .ok t
  | .rarrowTextBox t => .ok t
  | .larrowTextBox t => .ok t
  | .modPlus => .ok "X"
  | .otherSymbol d => .error ("Unknown cirq version of " ++ d)

/-- The part of a bloq consumed by the diagram-info translation: its signature
and its `wire_symbol(reg, idx)` method (idx defaults to `()`). -/
structure DrawBloq where
  signature : List Register
  wireSymbol : Register → List Nat → WireSymbol

/-- The wire-symbol list built by `_wire_symbol_to_cirq_diagram_info`: for a
shaped register, one symbol per index per bit; for a shapeless register,
`[bloq.wire_symbol(reg)] * reg.bitsize`. -/
def wireSymbolsOf (b : DrawBloq) : List WireSymbol :=
  b.signature.flatMap (fun reg =>
    if reg.shape ≠ [] then
      (allIdxs reg.shape).flatMap (fun ri =>
        (List.range reg.bitsize).map (fun _ => b.wireSymbol reg ri))
    else
      List.replicate reg.bitsize (b.wireSymbol reg []))

/-- `_wire_symbol_to_cirq_diagram_info`: translate every collected wire
symbol; the first unknown symbol kind surfaces as the error. -/
def wireSymbolDiagramInfo (b : DrawBloq) : Except String (List String) :=
  (wireSymbolsOf b).mapM wireSymbolToCirqText

theorem wireSymbolsOf_eq_flat (b : DrawBloq) :
    wireSymbolsOf b =
      b.signature.flatMap (fun reg =>
        (allIdxs reg.shape).flatMap (fun ri =>
          List.replicate reg.bitsize (b.wireSymbol reg ri))) := by
  unfold wireSymbolsOf
  apply List.flatMap_congr
  intro reg _
  by_cases h : reg.shape = []
  · simp [h, allIdxs]
  · simp only [h, ne_eq, not_false_eq_true, if_true]
    apply List.flatMap_congr
    intro ri _
    simp [List.map_const']

/-- C7: the wire-symbol translation is the closed exhaustive mapping — filled
circle to `@`, unfilled circle to `(0)`, text/arrow boxes to their literal
text, `ModPlus` to `X`, anything else an "Unknown cirq version" error — and
the diagram emits exactly one label per register, per index in its shape, per
bit in its width. -/
theorem wire_symbol_translation_spec (b : DrawBloq) (t d : String) :
    wireSymbolToCirqText (.circle true) = .ok "@" ∧
    wireSymbolToCirqText (.circle false) = .ok "(0)" ∧
    wireSymbolToCirqText (.textBox t) = .ok t ∧
    wireSymbolToCirqText (.rarrowTextBox t) = .ok t ∧
    wireSymbolToCirqText (.larrowTextBox t) = .ok t ∧
    wireSymbolToCirqText .modPlus = .ok "X" ∧
    wireSymbolToCirqText (.otherSymbol d) = .error ("Unknown cirq version of " ++ d) ∧
    wireSymbolsOf b =
      b.signature.flatMap (fun reg =>
        (allIdxs reg.shape).flatMap (fun ri =>
          List.replicate reg.bitsize (b.wireSymbol reg ri))) ∧
    (wireSymbolsOf b).length =
      (b.signature.map (fun reg => (allIdxs reg.shape).length * reg.bitsize)).sum := by
  refine ⟨rfl, rfl, rfl, rfl, rfl, rfl, rfl, wireSymbolsOf_eq_flat b, ?_⟩
  rw [wireSymbolsOf_eq_flat b, List.length_flatMap]
  congr 1
  apply List.map_congr_left
  intro reg _
  simp [Function.comp_def, List.length_flatMap, List.map_const', List.sum_replicate,
    smul_eq_mul, Nat.mul_comm]

/-! ## Graph-to-circuit exporter

Shallow embedding of `_track_soq_name_changes`, `_bloq_to_cirq_op` and
`_cbloq_to_cirq_circuit`.  Cirq qubits are identified by naturals; a numpy
qubit array (shape + trailing bitsize axis) is an association list from shape
index to the cell's qubit vector; the `qvar_to_qreg` binding map is a function
from soquets to optional `_QReg` values; Python exceptions (`KeyError`,
`AssertionError`, `ValueError`) become `Except` errors. -/

abbrev Qubit := Nat

abbrev Idx := List Nat

/-- `_QReg`: a concrete tuple of cirq qubits plus the originating dtype. -/
structure QReg where
  qubits : List Qubit
  dtype : DType
deriving DecidableEq, Repr

inductive BinstNode where
  | leftDangle
  | rightDangle
  | binst (i : Nat)
deriving DecidableEq, Repr

structure Soquet where
  binst : BinstNode
  reg : Register
  idx : Idx
deriving DecidableEq, Repr

/-- A `Connection`: directed edge from the producing soquet to the consuming
soquet. -/
structure Cxn where
  left : Soquet
  right : Soquet
deriving DecidableEq, Repr

abbrev QMap := Soquet → Option QReg

def QMap.update (m : QMap) (s : Soquet) (r : QReg) : QMap :=
  fun x => if x = s then some r else m x

def QMap.erase (m : QMap) (s : Soquet) : QMap :=
  fun x => if x = s then none else m x

/-- One cell array: shape index to the cell's qubit vector (bitsize axis). -/
abbrev Cells := List (Idx × List Qubit)

/-- A `{name: qubit array}` mapping (`CirqQuregT` dict). -/
abbrev Quregs := List (String × Cells)

def Cells.get? (cs : Cells) (idx : Idx) : Option (List Qubit) :=
  (cs.find? (fun c => decide (c.1 = idx))).map (·.2)

/-- Write one cell of a numpy object array (indexed storage: any prior value
at the index is replaced). -/
def Cells.set (cs : Cells) (idx : Idx) (v : List Qubit) : Cells :=
  (idx, v) :: cs.filter (fun c => decide (¬ c.1 = idx))

def Quregs.get? (qs : Quregs) (name : String) : Option Cells :=
  (qs.find? (fun kv => decide (kv.1 = name))).map (·.2)

def Quregs.cell? (qs : Quregs) (name : String) (idx : Idx) : Option (List Qubit) :=
  (Quregs.get? qs name).bind (fun cs => Cells.get? cs idx)

def Quregs.hasName (qs : Quregs) (name : String) : Bool :=
  qs.any (fun kv => decide (kv.1 = name))

def Quregs.setCell (qs : Quregs) (name : String) (idx : Idx) (v : List Qubit) : Quregs :=
  qs.map (fun kv => if kv.1 = name then (kv.1, Cells.set kv.2 idx v) else kv)

/-- The exceptions the exporter can raise.  The three binding-map misses
(`KeyError` in `_track_soq_name_changes`, the `assert soq in qvar_to_qreg` in
`_bloq_to_cirq_op`, `KeyError` in `_f_quregs`) are the spec's
ConsistencyError; the remaining constructors are the other `KeyError` /
`AssertionError` / `ValueError` sites. -/
inductive ExportErr where
  | trackKeyError (s : Soquet)
  | soqNotInMap (s : Soquet)
  | inQuregKeyError (s : Soquet)
  | outQuregsMissingName (s : Soquet)
  | classicalRightWire (s : Soquet)
  | leftQuregMissing (name : String) (idx : Idx)
  | extraQuregName (name : String)
  | rightBindingMissing (s : Soquet)
deriving DecidableEq, Repr

/-- Whether an error is one of the binding-map-miss (ConsistencyError)
sites. -/
def ExportErr.isBindingMapMiss : ExportErr → Bool
  | .trackKeyError _ => true
  | .soqNotInMap _ => true
  | .rightBindingMissing _ => true
  | _ => false

/-- An external cirq operation: a gate applied to specific qubits. -/
structure CirqOp where
  gate : String
  qubits : List Qubit
deriving DecidableEq, Repr

/-- A bloq as consumed by the exporter: its signature plus its
`as_cirq_op(qubit_manager, **in_quregs)` contract, returning an optional
operation, the output quregs and the updated qubit-manager state (a fresh
counter stands in for `cirq.QubitManager`). -/
structure ExportBloq where
  signature : List Register
  asCirqOp : Nat → Quregs → Option CirqOp × Quregs × Nat

/-- One iteration of `_track_soq_name_changes`:
`qvar_to_qreg[cxn.right] = qvar_to_qreg[cxn.left]` (a `KeyError` if absent)
then `del qvar_to_qreg[cxn.left]`. -/
def trackStep (m : QMap) (cxn : Cxn) : Except ExportErr QMap :=
  match m cxn.left with
  | none => .error (.trackKeyError cxn.left)
  | some r => .ok (QMap.erase (QMap.update m cxn.right r) cxn.left)

/-- `_track_soq_name_changes`. -/
def trackSoqNameChanges (cxns : List Cxn) (m : QMap) : Except ExportErr QMap :=
  cxns.foldlM trackStep m

/-- `in_quregs` as initialized in `_bloq_to_cirq_op`: one empty object array
per left register of the bloq. -/
def initInQuregs (bloq : ExportBloq) : Quregs :=
  (leftsOf bloq.signature).map (fun r => (r.name, ([] : Cells)))

/-- Step 1 of `_bloq_to_cirq_op` for one predecessor connection: assert the
consumed soquet is bound, copy its qubits into `in_quregs` (a `KeyError` if
the register name is not an input array), and retire LEFT-side soquets from
the binding map. -/
def processPredCxn (cxn : Cxn) (st : Quregs × QMap) : Except ExportErr (Quregs × QMap) :=
  match st.2 cxn.right with
  | none => .error (.soqNotInMap cxn.right)
  | some qreg =>
      if Quregs.hasName st.1 cxn.right.reg.name then
        .ok (Quregs.setCell st.1 cxn.right.reg.name cxn.right.idx qreg.qubits,
          if cxn.right.reg.side = Side.left then QMap.erase st.2 cxn.right else st.2)
      else .error (.inQuregKeyError cxn.right)

def processPredCxns (cxns : List Cxn) (st : Quregs × QMap) :
    Except ExportErr (Quregs × QMap) :=
  cxns.foldlM (fun st c => processPredCxn c st) st

/-- Step 2 of `_bloq_to_cirq_op` for one successor connection: assert the
produced register name is among the output quregs; for a RIGHT-side soquet,
fail on a classical dtype, otherwise record a fresh binding from the output
arrays. -/
def processSuccCxn (outQuregs : Quregs) (m : QMap) (cxn : Cxn) : Except ExportErr QMap :=
  if Quregs.hasName outQuregs cxn.left.reg.name then
    if cxn.left.reg.side = Side.right then
      if cxn.left.reg.dtype.isQuantum then
        .ok (QMap.update m cxn.left
          ⟨(Quregs.cell? outQuregs cxn.left.reg.name cxn.left.idx).getD [], cxn.left.reg.dtype⟩)
      else .error (.classicalRightWire cxn.left)
    else .ok m
  else .error (.outQuregsMissingName cxn.left)

def processSuccCxns (outQuregs : Quregs) (cxns : List Cxn) (m : QMap) :
    Except ExportErr QMap :=
  cxns.foldlM (fun m c => processSuccCxn outQuregs m c) m

structure OpResult where
  op : Option CirqOp
  m : QMap
  qm : Nat

/-- `_bloq_to_cirq_op`: rename across the predecessor connections, build the
input qubit arrays (retiring LEFT-side soquets), call the bloq's
`as_cirq_op`, then record fresh bindings for RIGHT-side produced soquets. -/
def bloqToCirqOp (bloq : ExportBloq) (predCxns succCxns : List Cxn) (m : QMap) (qm : Nat) :
    Except ExportErr OpResult := do
  let m₁ ← trackSoqNameChanges predCxns m
  let st ← processPredCxns predCxns (initInQuregs bloq, m₁)
  let t := bloq.asCirqOp qm st.1
  let m₃ ← processSuccCxns t.2.1 succCxns st.2
  return ⟨t.1, m₃, t.2.2⟩

/-- The composite bloq's instance graph, as consumed by
`_cbloq_to_cirq_circuit`.  Modelled from the spec: `greedy_topological_sort`
and `_binst_to_cxns` live outside `src/`; per §4.4 the traversal visits nodes
in a (greedy) topological order, here recorded as the `order` field, and a
node's predecessor / successor connections are the graph edges into / out of
it, kept in edge-insertion order. -/
structure BinstGraph where
  order : List BinstNode
  cxns : List Cxn
  bloqOf : Nat → ExportBloq

def predCxnsOf (g : BinstGraph) (b : BinstNode) : List Cxn :=
  g.cxns.filter (fun c => decide (c.right.binst = b))

def succCxnsOf (g : BinstGraph) (b : BinstNode) : List Cxn :=
  g.cxns.filter (fun c => decide (c.left.binst = b))

/-- One cell of the initial boundary binding: bind
`Soquet(LeftDangle, idx, reg)` to the wrapped `_QReg` read from the input
arrays (a `KeyError` if the register's array or cell is missing). -/
def initRegCell (quregs : Quregs) (reg : Register) (m : QMap) (idx : Idx) :
    Except ExportErr QMap :=
  match Quregs.cell? quregs reg.name idx with
  | some qs => .ok (QMap.update m ⟨.leftDangle, reg, idx⟩ ⟨qs, reg.dtype⟩)
  | none => .error (.leftQuregMissing reg.name idx)

def initReg (quregs : Quregs) (m : QMap) (reg : Register) : Except ExportErr QMap :=
  (allIdxs reg.shape).foldlM (initRegCell quregs reg) m

/-- The initial `Soquet(LeftDangle, idx, reg) -> _QReg` binding map built by
`_cbloq_to_cirq_circuit` from the caller-supplied qubit arrays. -/
def initialQMap (sigLefts : List Register) (quregs : Quregs) : Except ExportErr QMap :=
  sigLefts.foldlM (initReg quregs) (fun _ => none)

/-- One iteration of the topological traversal in `_cbloq_to_cirq_circuit`:
skip `LeftDangle`, retire bindings at `RightDangle`, otherwise run
`_bloq_to_cirq_op` and append the produced operation. -/
def exportStep (g : BinstGraph) (st : List CirqOp × QMap × Nat) (node : BinstNode) :
    Except ExportErr (List CirqOp × QMap × Nat) :=
  match node with
  | .leftDangle => .ok st
  | .rightDangle => do
      let m ← trackSoqNameChanges (predCxnsOf g .rightDangle) st.2.1
      return (st.1, m, st.2.2)
  | .binst i => do
      let r ← bloqToCirqOp (g.bloqOf i) (predCxnsOf g (.binst i)) (succCxnsOf g (.binst i))
        st.2.1 st.2.2
      return (st.1 ++ r.op.toList, r.m, r.qm)

/-- One cell of `_f_quregs`: read the retired `RightDangle` binding
(a `KeyError` if absent). -/
def finalCell (m : QMap) (reg : Register) (cs : Cells) (idx : Idx) : Except ExportErr Cells :=
  match m ⟨.rightDangle, reg, idx⟩ with
  | some qreg => .ok (cs ++ [(idx, qreg.qubits)])
  | none => .error (.rightBindingMissing ⟨.rightDangle, reg, idx⟩)

/-- `_f_quregs`: read the retired `RightDangle` bindings back into the output
qubit array of one right register. -/
def finalQuregCells (m : QMap) (reg : Register) : Except ExportErr Cells :=
  (allIdxs reg.shape).foldlM (finalCell m reg) ([] : Cells)

/-- The `_QReg`-wrapping dict comprehension at the top of
`_cbloq_to_cirq_circuit` iterates the caller's dict and calls
`signature.get_left(k)`, so a supplied name that is not a left register
raises a `KeyError`. -/
def checkQuregNames (sig : List Register) (cirqQuregs : Quregs) : Except ExportErr Unit :=
  match (cirqQuregs.map (·.1)).find?
      (fun n => decide (¬ (leftsOf sig).any (fun r => decide (r.name = n)))) with
  | some n => .error (.extraQuregName n)
  | none => .ok ()

def buildOutStep (m : QMap) (acc : Quregs) (reg : Register) : Except ExportErr Quregs := do
  let cells ← finalQuregCells m reg
  return acc ++ [(reg.name, cells)]

/-- The final loop of `_cbloq_to_cirq_circuit`: `_f_quregs` per right
register. -/
def buildOutQuregs (sig : List Register) (m : QMap) : Except ExportErr Quregs :=
  (rightsOf sig).foldlM (buildOutStep m) ([] : Quregs)

/-- `_cbloq_to_cirq_circuit`: wrap the input qubit arrays, seed the boundary
bindings, walk the instance graph in topological order collecting operations,
and assemble the output qubit arrays from the retired `RightDangle`
bindings. -/
def cbloqToCirqCircuit (sig : List Register) (cirqQuregs : Quregs) (g : BinstGraph)
    (qm : Nat) : Except ExportErr (List CirqOp × Quregs) := do
  let _ ← checkQuregNames sig cirqQuregs
  let m₀ ← initialQMap (leftsOf sig) cirqQuregs
  let st ← g.order.foldlM (exportStep g) (([] : List CirqOp), m₀, qm)
  let out ← buildOutQuregs sig st.2.1
  return (st.1, out)

theorem exceptBind_ok {ε α β : Type} (a : α) (f : α → Except ε β) :
    (Except.ok a >>= f) = f a := rfl

theorem exceptBind_err {ε α β : Type} (e : ε) (f : α → Except ε β) :
    ((Except.error e : Except ε α) >>= f) = .error e := rfl

theorem trackStep_ok (m : QMap) (c : Cxn) (m₁ : QMap) (h : trackStep m c = .ok m₁) :
    ∃ r, m c.left = some r ∧ m₁ = QMap.erase (QMap.update m c.right r) c.left := by
  unfold trackStep at h
  split at h
  next hr => cases h
  next r hr =>
    cases h
    exact ⟨r, hr, rfl⟩

theorem trackStep_err (m : QMap) (c : Cxn) (e : ExportErr) (h : trackStep m c = .error e) :
    e = .trackKeyError c.left ∧ m c.left = none := by
  unfold trackStep at h
  split at h
  next hr =>
    cases h
    exact ⟨rfl, hr⟩
  next r hr => cases h

theorem trackStep_of_some (m : QMap) (c : Cxn) (r : QReg) (hr : m c.left = some r) :
    trackStep m c = .ok (QMap.erase (QMap.update m c.right r) c.left) := by
  unfold trackStep
  rw [hr]

theorem trackStep_of_none (m : QMap) (c : Cxn) (hr : m c.left = none) :
    trackStep m c = .error (.trackKeyError c.left) := by
  unfold trackStep
  rw [hr]

theorem processPredCxn_ok (c : Cxn) (st st' : Quregs × QMap)
    (h : processPredCxn c st = .ok st') :
    ∃ qreg, st.2 c.right = some qreg ∧
      Quregs.hasName st.1 c.right.reg.name = true ∧
      st' = (Quregs.setCell st.1 c.right.reg.name c.right.idx qreg.qubits,
        if c.right.reg.side = Side.left then QMap.erase st.2 c.right else st.2) := by
  unfold processPredCxn at h
  split at h
  next hr => cases h
  next qreg hr =>
    by_cases hn : Quregs.hasName st.1 c.right.reg.name = true
    · rw [if_pos hn] at h
      cases h
      exact ⟨qreg, hr, hn, rfl⟩
    · rw [if_neg hn] at h
      cases h

theorem processPredCxns_frame (cxns : List Cxn) (st st' : Quregs × QMap)
    (h : processPredCxns cxns st = .ok st') (s : Soquet)
    (hs : s ∉ cxns.map (·.right) ∨ s.reg.side ≠ Side.left) :
    st'.2 s = st.2 s := by
  induction cxns generalizing st with
  | nil =>
    unfold processPredCxns at h
    simp only [List.foldlM_nil] at h
    cases h
    rfl
  | cons c rest ih =>
    unfold processPredCxns at h ih
    rw [List.foldlM_cons] at h
    cases hc : processPredCxn c st with
    | error e => rw [hc, exceptBind_err] at h; cases h
    | ok st₁ =>
      rw [hc, exceptBind_ok] at h
      have hrest : s ∉ rest.map (·.right) ∨ s.reg.side ≠ Side.left := by
        rcases hs with hs | hs
        · exact Or.inl (fun hmem => hs (by simpa using Or.inr (List.mem_map.mp hmem)))
        · exact Or.inr hs
      rw [ih st₁ h hrest]
      obtain ⟨qreg, _, _, hst₁⟩ := processPredCxn_ok c st st₁ hc
      rw [hst₁]
      by_cases hside : c.right.reg.side = Side.left
      · simp only [if_pos hside, QMap.erase]
        have hsc : s ≠ c.right := by
          rcases hs with hs | hs
          · intro hsc
            exact hs (by simp [hsc])
          · intro hsc
            rw [hsc] at hs
            exact hs hside
        rw [if_neg hsc]
      · simp only [if_neg hside]

theorem processSuccCxn_ok (outQ : Quregs) (m : QMap) (c : Cxn) (m' : QMap)
    (h : processSuccCxn outQ m c = .ok m') :
    Quregs.hasName outQ c.left.reg.name = true ∧
    ((c.left.reg.side = Side.right ∧ c.left.reg.dtype.isQuantum = true ∧
        m' = QMap.update m c.left
          ⟨(Quregs.cell? outQ c.left.reg.name c.left.idx).getD [], c.left.reg.dtype⟩) ∨
      (c.left.reg.side ≠ Side.right ∧ m' = m)) := by
  unfold processSuccCxn at h
  by_cases hn : Quregs.hasName outQ c.left.reg.name = true
  · rw [if_pos hn] at h
    refine ⟨hn, ?_⟩
    by_cases hside : c.left.reg.side = Side.right
    · rw [if_pos hside] at h
      by_cases hq : c.left.reg.dtype.isQuantum = true
      · rw [if_pos hq] at h
        cases h
        exact Or.inl ⟨hside, hq, rfl⟩
      · rw [if_neg hq] at h
        cases h
    · rw [if_neg hside] at h
      cases h
      exact Or.inr ⟨hside, rfl⟩
  · rw [if_neg hn] at h
    cases h

theorem processSuccCxns_frame (outQ : Quregs) (cxns : List Cxn) (m m' : QMap)
    (h : processSuccCxns outQ cxns m = .ok m') (s : Soquet)
    (hs : s ∉ cxns.map (·.left) ∨ s.reg.side ≠ Side.right) :
    m' s = m s := by
  induction cxns generalizing m with
  | nil =>
    unfold processSuccCxns at h
    simp only [List.foldlM_nil] at h
    cases h
    rfl
  | cons c rest ih =>
    unfold processSuccCxns at h ih
    rw [List.foldlM_cons] at h
    cases hc : processSuccCxn outQ m c with
    | error e => rw [hc, exceptBind_err] at h; cases h
    | ok m₁ =>
      rw [hc, exceptBind_ok] at h
      have hrest : s ∉ rest.map (·.left) ∨ s.reg.side ≠ Side.right := by
        rcases hs with hs | hs
        · exact Or.inl (fun hmem => hs (by simpa using Or.inr (List.mem_map.mp hmem)))
        · exact Or.inr hs
      rw [ih m₁ h hrest]
      obtain ⟨-, hcase⟩ := processSuccCxn_ok outQ m c m₁ hc
      rcases hcase with ⟨hside, -, hm₁⟩ | ⟨-, hm₁⟩
      · rw [hm₁]
        simp only [QMap.update]
        have hsc : s ≠ c.left := by
          rcases hs with hs | hs
          · intro hsc
            exact hs (by simp [hsc])
          · intro hsc
            rw [hsc] at hs
            exact hs hside
        rw [if_neg hsc]
      · rw [hm₁]

/-- Successor-loop success characterization used for C5 and the C9 invariant:
on success the retained bindings for RIGHT-side produced soquets come from the
output arrays. -/
theorem processSuccCxns_right_bound (outQ : Quregs) (cxns : List Cxn) :
    ∀ (m m' : QMap), (cxns.map (·.left)).Nodup →
      processSuccCxns outQ cxns m = .ok m' →
      ∀ c ∈ cxns, c.left.reg.side = Side.right →
        c.left.reg.dtype.isQuantum = true ∧
        m' c.left = some ⟨(Quregs.cell? outQ c.left.reg.name c.left.idx).getD [],
          c.left.reg.dtype⟩ := by
  induction cxns with
  | nil =>
    intro m m' _ _ c hc
    cases hc
  | cons c₀ rest ih =>
    intro m m' hnodup h c hc hside
    unfold processSuccCxns at h ih
    rw [List.foldlM_cons] at h
    cases hc₀ : processSuccCxn outQ m c₀ with
    | error e => rw [hc₀, exceptBind_err] at h; cases h
    | ok m₁ =>
      rw [hc₀, exceptBind_ok] at h
      rcases List.mem_cons.mp hc with rfl | hcr
      · obtain ⟨-, hcase⟩ := processSuccCxn_ok outQ m c m₁ hc₀
        rcases hcase with ⟨-, hq, hm₁⟩ | ⟨hns, -⟩
        · refine ⟨hq, ?_⟩
          have hfr : m' c.left = m₁ c.left := by
            refine processSuccCxns_frame outQ rest m₁ m' h c.left (Or.inl ?_)
            intro hmem
            exact (List.nodup_cons.mp hnodup).1 hmem
          rw [hfr, hm₁]
          simp [QMap.update]
        · exact absurd hside hns
      · exact ih m₁ m' (List.nodup_cons.mp hnodup).2 h c hcr hside

/-- C5: in `_bloq_to_cirq_op`'s successor loop, a produced RIGHT-side wire of
classical dtype raises the "Output classical wires are not supported" error
(provided the preceding name assertions pass), so data is never silently
dropped; on success every RIGHT-side wire is quantum and gets a fresh binding
taken from the operation's output arrays. -/
theorem classical_right_wire_rejected (outQ : Quregs) (cxns : List Cxn) (m : QMap) :
    ((∀ c ∈ cxns, Quregs.hasName outQ c.left.reg.name = true) →
      (∃ c ∈ cxns, c.left.reg.side = Side.right ∧ c.left.reg.dtype.isQuantum = false) →
      ∃ s, processSuccCxns outQ cxns m = .error (.classicalRightWire s) ∧
        s.reg.side = Side.right ∧ s.reg.dtype.isQuantum = false) ∧
    ((cxns.map (·.left)).Nodup →
      ∀ m', processSuccCxns outQ cxns m = .ok m' →
      ∀ c ∈ cxns, c.left.reg.side = Side.right →
        c.left.reg.dtype.isQuantum = true ∧
        m' c.left = some ⟨(Quregs.cell? outQ c.left.reg.name c.left.idx).getD [],
          c.left.reg.dtype⟩) := by
  constructor
  · intro hnames hex
    induction cxns generalizing m with
    | nil => rcases hex with ⟨c, hc, -⟩; cases hc
    | cons c₀ rest ih =>
      unfold processSuccCxns at ih ⊢
      rw [List.foldlM_cons]
      have hn₀ : Quregs.hasName outQ c₀.left.reg.name = true :=
        hnames c₀ (List.mem_cons_self _ _)
      by_cases hcls : c₀.left.reg.side = Side.right ∧ c₀.left.reg.dtype.isQuantum = false
      · refine ⟨c₀.left, ?_, hcls.1, hcls.2⟩
        have hstep : processSuccCxn outQ m c₀ = .error (.classicalRightWire c₀.left) := by
          unfold processSuccCxn
          rw [if_pos hn₀, if_pos hcls.1, if_neg (by simp [hcls.2])]
        rw [hstep, exceptBind_err]
      · have hex' : ∃ c ∈ rest, c.left.reg.side = Side.right ∧
            c.left.reg.dtype.isQuantum = false := by
          rcases hex with ⟨c, hc, hprop⟩
          rcases List.mem_cons.mp hc with rfl | hcr
          · exact absurd hprop hcls
          · exact ⟨c, hcr, hprop⟩
        cases hc₀ : processSuccCxn outQ m c₀ with
        | error e =>
          exfalso
          unfold processSuccCxn at hc₀
          rw [if_pos hn₀] at hc₀
          by_cases hside : c₀.left.reg.side = Side.right
          · rw [if_pos hside] at hc₀
            by_cases hq : c₀.left.reg.dtype.isQuantum = true
            · rw [if_pos hq] at hc₀; cases hc₀
            · exact hcls ⟨hside, by simpa using hq⟩
          · rw [if_neg hside] at hc₀; cases hc₀
        | ok m₁ =>
          rw [exceptBind_ok]
          exact ih m₁ (fun c hc => hnames c (List.mem_cons_of_mem _ hc)) hex'
  · intro hnodup m' h
    exact processSuccCxns_right_bound outQ cxns m m' hnodup h

def clsRightReg : Register := ⟨"cls", ⟨false, 0⟩, [], 1, Side.right⟩

def qRightReg : Register := ⟨"anc", qbitDType, [], 1, Side.right⟩

def sCls : Soquet := ⟨.binst 0, clsRightReg, []⟩

def sAnc : Soquet := ⟨.binst 0, qRightReg, []⟩

def outQW : Quregs := [("cls", [([], [5])]), ("anc", [([], [7])])]

/-- Witness for C5: a classical RIGHT-side wire errors; a quantum RIGHT-side
wire gets bound to the output array's qubits. -/
theorem classical_right_wire_rejected_witness :
    (∃ s, processSuccCxns outQW [⟨sCls, sCls⟩] (fun _ => none) =
        .error (.classicalRightWire s) ∧
        s.reg.side = Side.right ∧ s.reg.dtype.isQuantum = false) ∧
    (qRightReg.dtype.isQuantum = true ∧
      QMap.update (fun _ => none) sAnc ⟨[7], qbitDType⟩ sAnc =
        some ⟨(Quregs.cell? outQW "anc" []).getD [], qRightReg.dtype⟩) :=
  ⟨(classical_right_wire_rejected outQW [⟨sCls, sCls⟩] (fun _ => none)).1
      (by decide) ⟨⟨sCls, sCls⟩, by simp, by decide, by decide⟩,
   (classical_right_wire_rejected outQW [⟨sAnc, sAnc⟩] (fun _ => none)).2
      (by simp) (QMap.update (fun _ => none) sAnc ⟨[7], qbitDType⟩) rfl
      ⟨sAnc, sAnc⟩ (by simp) rfl⟩

/-- THRU soquets keep their (renamed-in) binding through `_bloq_to_cirq_op`:
the LEFT-retire loop only erases LEFT-side soquets and the successor loop only
rebinds RIGHT-side soquets. -/
theorem bloqToCirqOp_thru_preserved (bloq : ExportBloq) (pred succ : List Cxn)
    (m m₁ : QMap) (qm : Nat) (res : OpResult)
    (htrack : trackSoqNameChanges pred m = .ok m₁)
    (h : bloqToCirqOp bloq pred succ m qm = .ok res) :
    ∀ s, s.reg.side = Side.thru → res.m s = m₁ s := by
  intro s hs
  unfold bloqToCirqOp at h
  rw [htrack, exceptBind_ok] at h
  cases hp : processPredCxns pred (initInQuregs bloq, m₁) with
  | error e => rw [hp, exceptBind_err] at h; cases h
  | ok st₁ =>
    rw [hp, exceptBind_ok] at h
    dsimp only at h
    cases hsc : processSuccCxns (bloq.asCirqOp qm st₁.1).2.1 succ st₁.2 with
    | error e => rw [hsc, exceptBind_err] at h; cases h
    | ok m₃ =>
      rw [hsc, exceptBind_ok] at h
      simp only [pure, Except.pure, Except.ok.injEq] at h
      subst h
      have h1 : m₃ s = st₁.2 s :=
        processSuccCxns_frame _ succ st₁.2 m₃ hsc s (Or.inr (by rw [hs]; decide))
      have h2 : st₁.2 s = m₁ s :=
        processPredCxns_frame pred (initInQuregs bloq, m₁) st₁ hp s
          (Or.inr (by rw [hs]; decide))
      show m₃ s = m₁ s
      rw [h1, h2]

def ctrlReg : Register := ⟨"ctrl", qbitDType, [], 1, Side.thru⟩

def targetReg : Register := ⟨"target", qbitDType, [], 1, Side.thru⟩

def cnotSig : List Register := [ctrlReg, targetReg]

/-- Modelled from the spec: the CNOT bloq's native `as_cirq_op` (§6
`native_call`, the operation library is not under `src/`) returns the
external CNOT on (control, target) and passes the input quregs through
unchanged. -/
def cnotExportBloq : ExportBloq where
  signature := cnotSig
  asCirqOp := fun qm inQ =>
    (some ⟨"CNOT",
        (Quregs.cell? inQ "ctrl" []).getD [] ++ (Quregs.cell? inQ "target" []).getD []⟩,
      inQ, qm)

/-- The single-CNOT composite graph: boundary wires into the one instance and
back out. -/
def cnotGraph : BinstGraph where
  order := [.leftDangle, .binst 0, .rightDangle]
  cxns :=
    [⟨⟨.leftDangle, ctrlReg, []⟩, ⟨.binst 0, ctrlReg, []⟩⟩,
     ⟨⟨.leftDangle, targetReg, []⟩, ⟨.binst 0, targetReg, []⟩⟩,
     ⟨⟨.binst 0, ctrlReg, []⟩, ⟨.rightDangle, ctrlReg, []⟩⟩,
     ⟨⟨.binst 0, targetReg, []⟩, ⟨.rightDangle, targetReg, []⟩⟩]
  bloqOf := fun _ => cnotExportBloq

def cnotQuregs : Quregs := [("ctrl", [([], [0])]), ("target", [([], [1])])]

/-- C6: exporting the single-CNOT graph with boundary qubits [0, 1] yields
exactly one external CNOT on (0, 1) with output qubit arrays equal to the
input arrays, and in general `_bloq_to_cirq_op` leaves the binding of every
THRU soquet unchanged. -/
theorem cnot_export_scenario :
    cbloqToCirqCircuit cnotSig cnotQuregs cnotGraph 0 =
      .ok ([⟨"CNOT", [0, 1]⟩], cnotQuregs) ∧
    (∀ (bloq : ExportBloq) (pred succ : List Cxn) (m m₁ : QMap) (qm : Nat) (res : OpResult),
      trackSoqNameChanges pred m = .ok m₁ →
      bloqToCirqOp bloq pred succ m qm = .ok res →
      ∀ s, s.reg.side = Side.thru → res.m s = m₁ s) :=
  ⟨rfl, fun bloq pred succ m m₁ qm res ht h =>
    bloqToCirqOp_thru_preserved bloq pred succ m m₁ qm res ht h⟩

/-- Witness for C6's THRU-preservation conjunct at a concrete
`_bloq_to_cirq_op` call with no connections. -/
theorem cnot_export_scenario_witness :
    (⟨some ⟨"CNOT", []⟩, (fun _ => none : QMap), 0⟩ : OpResult).m ⟨.binst 0, ctrlReg, []⟩ =
      (fun _ => (none : Option QReg)) (⟨.binst 0, ctrlReg, []⟩ : Soquet) :=
  cnot_export_scenario.2 cnotExportBloq [] [] (fun _ => none) (fun _ => none) 0
    ⟨some ⟨"CNOT", []⟩, fun _ => none, 0⟩ rfl rfl ⟨.binst 0, ctrlReg, []⟩ rfl

/-! ## C9: each qubit is bound to at most one live soquet -/

/-- The aliasing invariant of §5: every physical qubit identity occurs in the
binding of at most one live soquet. -/
def QubitsLinear (m : QMap) : Prop :=
  ∀ s1 s2 r1 r2 q, m s1 = some r1 → m s2 = some r2 →
    q ∈ r1.qubits → q ∈ r2.qubits → s1 = s2

theorem qubitsLinear_erase (m : QMap) (s : Soquet) (h : QubitsLinear m) :
    QubitsLinear (QMap.erase m s) := by
  intro s1 s2 r1 r2 q h1 h2 hq1 hq2
  unfold QMap.erase at h1 h2
  by_cases e1 : s1 = s
  · rw [if_pos e1] at h1
    cases h1
  · rw [if_neg e1] at h1
    by_cases e2 : s2 = s
    · rw [if_pos e2] at h2
      cases h2
    · rw [if_neg e2] at h2
      exact h s1 s2 r1 r2 q h1 h2 hq1 hq2

/-- The rename step `m[cxn.right] = m[cxn.left]; del m[cxn.left]` preserves
the invariant: it moves one binding to a new key. -/
theorem qubitsLinear_move (m : QMap) (src tgt : Soquet) (r : QReg)
    (hsrc : m src = some r) (h : QubitsLinear m) :
    QubitsLinear (QMap.erase (QMap.update m tgt r) src) := by
  intro s1 s2 r1 r2 q h1 h2 hq1 hq2
  unfold QMap.erase QMap.update at h1 h2
  by_cases e1 : s1 = src
  · rw [if_pos e1] at h1
    cases h1
  · rw [if_neg e1] at h1
    by_cases e2 : s2 = src
    · rw [if_pos e2] at h2
      cases h2
    · rw [if_neg e2] at h2
      by_cases t1 : s1 = tgt
      · rw [if_pos t1] at h1
        cases h1
        by_cases t2 : s2 = tgt
        · rw [t1, t2]
        · rw [if_neg t2] at h2
          exact absurd (h src s2 r r2 q hsrc h2 hq1 hq2).symm e2
      · rw [if_neg t1] at h1
        by_cases t2 : s2 = tgt
        · rw [if_pos t2] at h2
          cases h2
          exact absurd (h s1 src r1 r q h1 hsrc hq1 hq2) e1
        · rw [if_neg t2] at h2
          exact h s1 s2 r1 r2 q h1 h2 hq1 hq2

theorem qubitsLinear_track (cxns : List Cxn) (m m' : QMap)
    (h : trackSoqNameChanges cxns m = .ok m') (hlin : QubitsLinear m) :
    QubitsLinear m' := by
  induction cxns generalizing m with
  | nil =>
    unfold trackSoqNameChanges at h
    simp only [List.foldlM_nil] at h
    cases h
    exact hlin
  | cons c rest ih =>
    unfold trackSoqNameChanges at h ih
    rw [List.foldlM_cons] at h
    cases hs : trackStep m c with
    | error e => rw [hs, exceptBind_err] at h; cases h
    | ok m₁ =>
      rw [hs, exceptBind_ok] at h
      obtain ⟨r, hr, hm₁⟩ := trackStep_ok m c m₁ hs
      rw [hm₁] at h
      exact ih _ h (qubitsLinear_move m c.left c.right r hr hlin)

theorem qubitsLinear_pred (cxns : List Cxn) (st st' : Quregs × QMap)
    (h : processPredCxns cxns st = .ok st') (hlin : QubitsLinear st.2) :
    QubitsLinear st'.2 := by
  induction cxns generalizing st with
  | nil =>
    unfold processPredCxns at h
    simp only [List.foldlM_nil] at h
    cases h
    exact hlin
  | cons c rest ih =>
    unfold processPredCxns at h ih
    rw [List.foldlM_cons] at h
    cases hc : processPredCxn c st with
    | error e => rw [hc, exceptBind_err] at h; cases h
    | ok st₁ =>
      rw [hc, exceptBind_ok] at h
      obtain ⟨qreg0, h1, h2, hst₁⟩ := processPredCxn_ok c st st₁ hc
      refine ih st₁ h ?_
      rw [hst₁]
      by_cases hside : c.right.reg.side = Side.left
      · simp only [if_pos hside]
        exact qubitsLinear_erase st.2 c.right hlin
      · simp only [if_neg hside]
        exact hlin

/-- Recording one fresh binding preserves the invariant when the recorded
qubits are disjoint from every live binding. -/
theorem qubitsLinear_fresh_update (m : QMap) (s : Soquet) (r : QReg)
    (hfresh : ∀ q ∈ r.qubits, ∀ s' r', m s' = some r' → q ∉ r'.qubits)
    (h : QubitsLinear m) : QubitsLinear (QMap.update m s r) := by
  intro s1 s2 r1 r2 q h1 h2 hq1 hq2
  unfold QMap.update at h1 h2
  by_cases e1 : s1 = s
  · rw [if_pos e1] at h1
    cases h1
    by_cases e2 : s2 = s
    · rw [e1, e2]
    · rw [if_neg e2] at h2
      exact absurd hq2 (hfresh q hq1 s2 r2 h2)
  · rw [if_neg e1] at h1
    by_cases e2 : s2 = s
    · rw [if_pos e2] at h2
      cases h2
      exact absurd hq1 (hfresh q hq2 s1 r1 h1)
    · rw [if_neg e2] at h2
      exact h s1 s2 r1 r2 q h1 h2 hq1 hq2

theorem qubitsLinear_succ (outQ : Quregs) (cxns : List Cxn) :
    ∀ (m m' : QMap), (cxns.map (·.left)).Nodup →
      processSuccCxns outQ cxns m = .ok m' →
      QubitsLinear m →
      (∀ c ∈ cxns, c.left.reg.side = Side.right →
        ∀ q ∈ (Quregs.cell? outQ c.left.reg.name c.left.idx).getD [],
          (∀ s' r', m s' = some r' → q ∉ r'.qubits) ∧
          (∀ c' ∈ cxns, c' ≠ c → c'.left.reg.side = Side.right →
            q ∉ (Quregs.cell? outQ c'.left.reg.name c'.left.idx).getD [])) →
      QubitsLinear m' := by
  induction cxns with
  | nil =>
    intro m m' _ h hlin _
    unfold processSuccCxns at h
    simp only [List.foldlM_nil] at h
    cases h
    exact hlin
  | cons c₀ rest ih =>
    intro m m' hnodup h hlin hfresh
    unfold processSuccCxns at h ih
    rw [List.foldlM_cons] at h
    cases hc₀ : processSuccCxn outQ m c₀ with
    | error e => rw [hc₀, exceptBind_err] at h; cases h
    | ok m₁ =>
      rw [hc₀, exceptBind_ok] at h
      obtain ⟨-, hcase⟩ := processSuccCxn_ok outQ m c₀ m₁ hc₀
      rcases hcase with ⟨hside, -, hm₁⟩ | ⟨hside, hm₁⟩
      · have hlin₁ : QubitsLinear m₁ := by
          rw [hm₁]
          refine qubitsLinear_fresh_update m c₀.left _ ?_ hlin
          intro q hq s' r' hs'
          exact ((hfresh c₀ (List.mem_cons_self _ _) hside q hq).1 s' r' hs')
        refine ih m₁ m' (List.nodup_cons.mp hnodup).2 h hlin₁ ?_
        intro c hc hcside q hq
        have hne : c ≠ c₀ := by
          intro e
          refine (List.nodup_cons.mp hnodup).1 ?_
          refine List.mem_map.mpr ⟨c, hc, ?_⟩
          rw [e]
        constructor
        · intro s' r' hs'
          rw [hm₁] at hs'
          unfold QMap.update at hs'
          by_cases e' : s' = c₀.left
          · rw [if_pos e'] at hs'
            cases hs'
            exact (hfresh c (List.mem_cons_of_mem _ hc) hcside q hq).2 c₀
              (List.mem_cons_self _ _) (Ne.symm hne) hside
          · rw [if_neg e'] at hs'
            exact (hfresh c (List.mem_cons_of_mem _ hc) hcside q hq).1 s' r' hs'
        · intro c' hc' hne' hc'side
          exact (hfresh c (List.mem_cons_of_mem _ hc) hcside q hq).2 c'
            (List.mem_cons_of_mem _ hc') hne' hc'side
      · have hlin₁ : QubitsLinear m₁ := by rw [hm₁]; exact hlin
        refine ih m₁ m' (List.nodup_cons.mp hnodup).2 h hlin₁ ?_
        intro c hc hcside q hq
        constructor
        · intro s' r' hs'
          rw [hm₁] at hs'
          exact (hfresh c (List.mem_cons_of_mem _ hc) hcside q hq).1 s' r' hs'
        · intro c' hc' hne' hc'side
          exact (hfresh c (List.mem_cons_of_mem _ hc) hcside q hq).2 c'
            (List.mem_cons_of_mem _ hc') hne' hc'side

/-- C9: every step of the export traversal preserves the invariant that each
physical qubit identity is bound to at most one live soquet — rename
propagation across connections (the same loop performs boundary retirement at
RightDangle), retiring consumed LEFT-side soquets, the input loop as a whole,
and recording fresh RIGHT-side bindings whose qubits are not currently
live. -/
theorem qubit_binding_at_most_one_live_soquet :
    (∀ (cxns : List Cxn) (m m' : QMap), trackSoqNameChanges cxns m = .ok m' →
      QubitsLinear m → QubitsLinear m') ∧
    (∀ (m : QMap) (s : Soquet), QubitsLinear m → QubitsLinear (QMap.erase m s)) ∧
    (∀ (cxns : List Cxn) (st st' : Quregs × QMap), processPredCxns cxns st = .ok st' →
      QubitsLinear st.2 → QubitsLinear st'.2) ∧
    (∀ (outQ : Quregs) (cxns : List Cxn) (m m' : QMap),
      (cxns.map (·.left)).Nodup →
      processSuccCxns outQ cxns m = .ok m' →
      QubitsLinear m →
      (∀ c ∈ cxns, c.left.reg.side = Side.right →
        ∀ q ∈ (Quregs.cell? outQ c.left.reg.name c.left.idx).getD [],
          (∀ s' r', m s' = some r' → q ∉ r'.qubits) ∧
          (∀ c' ∈ cxns, c' ≠ c → c'.left.reg.side = Side.right →
            q ∉ (Quregs.cell? outQ c'.left.reg.name c'.left.idx).getD [])) →
      QubitsLinear m') :=
  ⟨fun cxns m m' h hlin => qubitsLinear_track cxns m m' h hlin,
   fun m s h => qubitsLinear_erase m s h,
   fun cxns st st' h hlin => qubitsLinear_pred cxns st st' h hlin,
   fun outQ cxns m m' hn h hl hf => qubitsLinear_succ outQ cxns m m' hn h hl hf⟩

def wSrc : Soquet := ⟨.leftDangle, ctrlReg, []⟩

def wTgt : Soquet := ⟨.binst 0, ctrlReg, []⟩

def wMap : QMap := fun s => if s = wSrc then some ⟨[0], qbitDType⟩ else none

/-- Witness for C9: renaming the single live binding across a connection
preserves the invariant, at a concrete one-entry binding map. -/
theorem qubit_binding_at_most_one_live_soquet_witness :
    QubitsLinear (QMap.erase (QMap.update wMap wTgt ⟨[0], qbitDType⟩) wSrc) :=
  qubit_binding_at_most_one_live_soquet.1 [⟨wSrc, wTgt⟩] wMap
    (QMap.erase (QMap.update wMap wTgt ⟨[0], qbitDType⟩) wSrc) rfl
    (by
      intro s1 s2 r1 r2 q h1 h2 _ _
      by_cases e1 : s1 = wSrc
      · by_cases e2 : s2 = wSrc
        · rw [e1, e2]
        · simp only [wMap, if_neg e2] at h2
          cases h2
      · simp only [wMap, if_neg e1] at h1
        cases h1)

/-! ## C8: binding-map misses are fatal and unreachable on well-formed graphs -/

theorem track_preserve (cxns : List Cxn) :
    ∀ (m m' : QMap), trackSoqNameChanges cxns m = .ok m' →
      ∀ s, s ∉ cxns.map (·.left) → m s ≠ none → m' s ≠ none := by
  induction cxns with
  | nil =>
    intro m m' h s _ hm
    unfold trackSoqNameChanges at h
    simp only [List.foldlM_nil] at h
    cases h
    exact hm
  | cons c rest ih =>
    intro m m' h s hs hm
    unfold trackSoqNameChanges at h ih
    rw [List.foldlM_cons] at h
    cases hstep : trackStep m c with
    | error e => rw [hstep, exceptBind_err] at h; cases h
    | ok m₁ =>
      rw [hstep, exceptBind_ok] at h
      obtain ⟨r, hr, hm₁⟩ := trackStep_ok m c m₁ hstep
      refine ih m₁ m' h s (fun hmem => hs (by simpa using Or.inr (by simpa using hmem))) ?_
      rw [hm₁]
      unfold QMap.erase QMap.update
      have hsl : s ≠ c.left := fun e => hs (by simp [e])
      rw [if_neg hsl]
      by_cases hsr : s = c.right
      · rw [if_pos hsr]
        simp
      · rw [if_neg hsr]
        exact hm

theorem track_targets (cxns : List Cxn) :
    ∀ (m m' : QMap), (∀ c c', c ∈ cxns → c' ∈ cxns → c.left ≠ c'.right) →
      trackSoqNameChanges cxns m = .ok m' →
      ∀ c ∈ cxns, m' c.right ≠ none := by
  induction cxns with
  | nil =>
    intro m m' _ _ c hc
    cases hc
  | cons c₀ rest ih =>
    intro m m' hdisj h c hc
    unfold trackSoqNameChanges at h ih
    rw [List.foldlM_cons] at h
    cases hstep : trackStep m c₀ with
    | error e => rw [hstep, exceptBind_err] at h; cases h
    | ok m₁ =>
      rw [hstep, exceptBind_ok] at h
      obtain ⟨r, hr, hm₁⟩ := trackStep_ok m c₀ m₁ hstep
      rcases List.mem_cons.mp hc with rfl | hcr
      · have h1 : m₁ c.right ≠ none := by
          rw [hm₁]
          unfold QMap.erase QMap.update
          have : c.left ≠ c.right :=
            hdisj c c (List.mem_cons_self _ _) (List.mem_cons_self _ _)
          rw [if_neg (Ne.symm this), if_pos rfl]
          simp
        refine track_preserve rest m₁ m' h c.right ?_ h1
        intro hmem
        rcases List.mem_map.mp hmem with ⟨c', hc', he⟩
        exact hdisj c' c (List.mem_cons_of_mem _ hc') (List.mem_cons_self _ _) he
      · refine ih m₁ m' ?_ h c hcr
        intro a a' ha ha'
        exact hdisj a a' (List.mem_cons_of_mem _ ha) (List.mem_cons_of_mem _ ha')

theorem track_okEx (cxns : List Cxn) :
    ∀ (m : QMap), (cxns.map (·.left)).Nodup → (∀ c ∈ cxns, m c.left ≠ none) →
      ∃ m', trackSoqNameChanges cxns m = .ok m' := by
  induction cxns with
  | nil =>
    intro m _ _
    exact ⟨m, rfl⟩
  | cons c rest ih =>
    intro m hnd hcov
    cases hr : m c.left with
    | none => exact absurd hr (hcov c (List.mem_cons_self _ _))
    | some r =>
      have hstep := trackStep_of_some m c r hr
      have hcov' : ∀ c' ∈ rest,
          QMap.erase (QMap.update m c.right r) c.left c'.left ≠ none := by
        intro c' hc'
        have hne : c'.left ≠ c.left := by
          intro e
          exact (List.nodup_cons.mp hnd).1 (List.mem_map.mpr ⟨c', hc', e⟩)
        unfold QMap.erase QMap.update
        rw [if_neg hne]
        by_cases e : c'.left = c.right
        · rw [if_pos e]
          simp
        · rw [if_neg e]
          exact hcov c' (List.mem_cons_of_mem _ hc')
      obtain ⟨m', hm'⟩ := ih _ (List.nodup_cons.mp hnd).2 hcov'
      refine ⟨m', ?_⟩
      unfold trackSoqNameChanges at hm' ⊢
      rw [List.foldlM_cons, hstep, exceptBind_ok]
      exact hm'

theorem track_err_is_miss (cxns : List Cxn) :
    ∀ (m : QMap) (e : ExportErr), trackSoqNameChanges cxns m = .error e →
      ∃ s, e = .trackKeyError s := by
  induction cxns with
  | nil =>
    intro m e h
    unfold trackSoqNameChanges at h
    simp only [List.foldlM_nil] at h
    cases h
  | cons c rest ih =>
    intro m e h
    unfold trackSoqNameChanges at h ih
    rw [List.foldlM_cons] at h
    cases hstep : trackStep m c with
    | error e' =>
      rw [hstep, exceptBind_err] at h
      cases h
      exact ⟨c.left, (trackStep_err m c e hstep).1⟩
    | ok m₁ =>
      rw [hstep, exceptBind_ok] at h
      exact ih m₁ e h

theorem pred_no_miss (cxns : List Cxn) :
    ∀ (inq : Quregs) (m : QMap), (cxns.map (·.right)).Nodup →
      (∀ c ∈ cxns, m c.right ≠ none) →
      ∀ e, processPredCxns cxns (inq, m) = .error e → ∃ s, e = .inQuregKeyError s := by
  induction cxns with
  | nil =>
    intro inq m _ _ e h
    unfold processPredCxns at h
    simp only [List.foldlM_nil] at h
    cases h
  | cons c rest ih =>
    intro inq m hnd hcov e h
    unfold processPredCxns at h ih
    rw [List.foldlM_cons] at h
    cases hstep : processPredCxn c (inq, m) with
    | error e' =>
      rw [hstep, exceptBind_err] at h
      cases h
      unfold processPredCxn at hstep
      split at hstep
      next hr => exact absurd hr (hcov c (List.mem_cons_self _ _))
      next qreg hr =>
        by_cases hn : Quregs.hasName inq c.right.reg.name = true
        · rw [if_pos hn] at hstep
          cases hstep
        · rw [if_neg hn] at hstep
          cases hstep
          exact ⟨c.right, rfl⟩
    | ok st₁ =>
      rw [hstep, exceptBind_ok] at h
      obtain ⟨qreg, hr, hn, hst₁⟩ := processPredCxn_ok c (inq, m) st₁ hstep
      obtain ⟨inq₁, m₁⟩ := st₁
      have hm₁ : m₁ = if c.right.reg.side = Side.left then QMap.erase m c.right else m := by
        have := congrArg Prod.snd hst₁
        simpa using this
      have hcov' : ∀ c' ∈ rest, m₁ c'.right ≠ none := by
        intro c' hc'
        have hne : c'.right ≠ c.right := by
          intro eq
          exact (List.nodup_cons.mp hnd).1 (List.mem_map.mpr ⟨c', hc', eq⟩)
        rw [hm₁]
        by_cases hside : c.right.reg.side = Side.left
        · rw [if_pos hside]
          unfold QMap.erase
          rw [if_neg hne]
          exact hcov c' (List.mem_cons_of_mem _ hc')
        · rw [if_neg hside]
          exact hcov c' (List.mem_cons_of_mem _ hc')
      exact ih inq₁ m₁ (List.nodup_cons.mp hnd).2 hcov' e h

theorem succ_err_kind (cxns : List Cxn) :
    ∀ (outQ : Quregs) (m : QMap) (e : ExportErr),
      processSuccCxns outQ cxns m = .error e → e.isBindingMapMiss = false := by
  induction cxns with
  | nil =>
    intro outQ m e h
    unfold processSuccCxns at h
    simp only [List.foldlM_nil] at h
    cases h
  | cons c rest ih =>
    intro outQ m e h
    unfold processSuccCxns at h ih
    rw [List.foldlM_cons] at h
    cases hstep : processSuccCxn outQ m c with
    | error e' =>
      rw [hstep, exceptBind_err] at h
      cases h
      unfold processSuccCxn at hstep
      by_cases hn : Quregs.hasName outQ c.left.reg.name = true
      · rw [if_pos hn] at hstep
        by_cases hside : c.left.reg.side = Side.right
        · rw [if_pos hside] at hstep
          by_cases hq : c.left.reg.dtype.isQuantum = true
          · rw [if_pos hq] at hstep
            cases hstep
          · rw [if_neg hq] at hstep
            cases hstep
            rfl
        · rw [if_neg hside] at hstep
          cases hstep
      · rw [if_neg hn] at hstep
        cases hstep
        rfl
    | ok m₁ =>
      rw [hstep, exceptBind_ok] at h
      exact ih outQ m₁ e h

theorem succ_preserve (cxns : List Cxn) :
    ∀ (outQ : Quregs) (m m' : QMap), processSuccCxns outQ cxns m = .ok m' →
      ∀ s, m s ≠ none → m' s ≠ none := by
  induction cxns with
  | nil =>
    intro outQ m m' h s hm
    unfold processSuccCxns at h
    simp only [List.foldlM_nil] at h
    cases h
    exact hm
  | cons c rest ih =>
    intro outQ m m' h s hm
    unfold processSuccCxns at h ih
    rw [List.foldlM_cons] at h
    cases hstep : processSuccCxn outQ m c with
    | error e => rw [hstep, exceptBind_err] at h; cases h
    | ok m₁ =>
      rw [hstep, exceptBind_ok] at h
      refine ih outQ m₁ m' h s ?_
      obtain ⟨-, hcase⟩ := processSuccCxn_ok outQ m c m₁ hstep
      rcases hcase with ⟨-, -, hm₁⟩ | ⟨-, hm₁⟩
      · rw [hm₁]
        unfold QMap.update
        by_cases e : s = c.left
        · rw [if_pos e]
          simp
        · rw [if_neg e]
          exact hm
      · rw [hm₁]
        exact hm

theorem succ_right_covered (outQ : Quregs) (cxns : List Cxn) (m m' : QMap)
    (hnodup : (cxns.map (·.left)).Nodup)
    (h : processSuccCxns outQ cxns m = .ok m') :
    ∀ c ∈ cxns, c.left.reg.side = Side.right → m' c.left ≠ none := by
  intro c hc hside
  have := (processSuccCxns_right_bound outQ cxns m m' hnodup h c hc hside).2
  rw [this]
  simp

theorem initRegCell_ok (quregs : Quregs) (reg : Register) (m : QMap) (idx : Idx)
    (m' : QMap) (h : initRegCell quregs reg m idx = .ok m') :
    ∃ qs, m' = QMap.update m ⟨.leftDangle, reg, idx⟩ ⟨qs, reg.dtype⟩ := by
  unfold initRegCell at h
  split at h
  next qs hq =>
    cases h
    exact ⟨qs, rfl⟩
  next hq => cases h

theorem initRegCell_err (quregs : Quregs) (reg : Register) (m : QMap) (idx : Idx)
    (e : ExportErr) (h : initRegCell quregs reg m idx = .error e) :
    e = .leftQuregMissing reg.name idx := by
  unfold initRegCell at h
  split at h
  next qs hq => cases h
  next hq => cases h; rfl

theorem initReg_preserve (idxs : List Idx) (quregs : Quregs) (reg : Register) :
    ∀ (m m' : QMap), idxs.foldlM (initRegCell quregs reg) m = .ok m' →
      ∀ s, m s ≠ none → m' s ≠ none := by
  induction idxs with
  | nil =>
    intro m m' h s hm
    simp only [List.foldlM_nil] at h
    cases h
    exact hm
  | cons idx rest ih =>
    intro m m' h s hm
    rw [List.foldlM_cons] at h
    cases hstep : initRegCell quregs reg m idx with
    | error e => rw [hstep, exceptBind_err] at h; cases h
    | ok m₁ =>
      rw [hstep, exceptBind_ok] at h
      obtain ⟨qs, hm₁⟩ := initRegCell_ok quregs reg m idx m₁ hstep
      refine ih m₁ m' h s ?_
      rw [hm₁]
      unfold QMap.update
      by_cases e : s = ⟨.leftDangle, reg, idx⟩
      · rw [if_pos e]
        simp
      · rw [if_neg e]
        exact hm

theorem initReg_covers (idxs : List Idx) (quregs : Quregs) (reg : Register) :
    ∀ (m m' : QMap), idxs.foldlM (initRegCell quregs reg) m = .ok m' →
      ∀ idx ∈ idxs, m' ⟨.leftDangle, reg, idx⟩ ≠ none := by
  induction idxs with
  | nil =>
    intro m m' _ idx hidx
    cases hidx
  | cons idx₀ rest ih =>
    intro m m' h idx hidx
    rw [List.foldlM_cons] at h
    cases hstep : initRegCell quregs reg m idx₀ with
    | error e => rw [hstep, exceptBind_err] at h; cases h
    | ok m₁ =>
      rw [hstep, exceptBind_ok] at h
      rcases List.mem_cons.mp hidx with rfl | hr
      · obtain ⟨qs, hm₁⟩ := initRegCell_ok quregs reg m idx m₁ hstep
        refine initReg_preserve rest quregs reg m₁ m' h _ ?_
        rw [hm₁]
        unfold QMap.update
        rw [if_pos rfl]
        simp
      · exact ih m₁ m' h idx hr

theorem initialQMap_preserve (lefts : List Register) (quregs : Quregs) :
    ∀ (m m' : QMap), lefts.foldlM (initReg quregs) m = .ok m' →
      ∀ s, m s ≠ none → m' s ≠ none := by
  induction lefts with
  | nil =>
    intro m m' h s hm
    simp only [List.foldlM_nil] at h
    cases h
    exact hm
  | cons reg rest ih =>
    intro m m' h s hm
    rw [List.foldlM_cons] at h
    cases hstep : initReg quregs m reg with
    | error e => rw [hstep, exceptBind_err] at h; cases h
    | ok m₁ =>
      rw [hstep, exceptBind_ok] at h
      exact ih m₁ m' h s (initReg_preserve _ quregs reg m m₁ hstep s hm)

theorem initialQMap_covers (lefts : List Register) (quregs : Quregs) :
    ∀ (m m' : QMap), lefts.foldlM (initReg quregs) m = .ok m' →
      ∀ reg ∈ lefts, ∀ idx ∈ allIdxs reg.shape, m' ⟨.leftDangle, reg, idx⟩ ≠ none := by
  induction lefts with
  | nil =>
    intro m m' _ reg hreg
    cases hreg
  | cons reg₀ rest ih =>
    intro m m' h reg hreg idx hidx
    rw [List.foldlM_cons] at h
    cases hstep : initReg quregs m reg₀ with
    | error e => rw [hstep, exceptBind_err] at h; cases h
    | ok m₁ =>
      rw [hstep, exceptBind_ok] at h
      rcases List.mem_cons.mp hreg with rfl | hr
      · exact initialQMap_preserve rest quregs m₁ m' h _
          (initReg_covers _ quregs reg m m₁ hstep idx hidx)
      · exact ih m₁ m' h reg hr idx hidx

theorem initialQMap_err_kind (lefts : List Register) (quregs : Quregs) :
    ∀ (m : QMap) (e : ExportErr), lefts.foldlM (initReg quregs) m = .error e →
      e.isBindingMapMiss = false := by
  induction lefts with
  | nil =>
    intro m e h
    simp only [List.foldlM_nil] at h
    cases h
  | cons reg rest ih =>
    intro m e h
    rw [List.foldlM_cons] at h
    cases hstep : initReg quregs m reg with
    | error e' =>
      rw [hstep, exceptBind_err] at h
      cases h
      unfold initReg at hstep
      clear ih
      generalize allIdxs reg.shape = idxs at hstep
      induction idxs generalizing m with
      | nil =>
        simp only [List.foldlM_nil] at hstep
        cases hstep
      | cons idx rest' ih' =>
        rw [List.foldlM_cons] at hstep
        cases hcell : initRegCell quregs reg m idx with
        | error e'' =>
          rw [hcell, exceptBind_err] at hstep
          cases hstep
          rw [initRegCell_err quregs reg m idx _ hcell]
          rfl
        | ok m₁ =>
          rw [hcell, exceptBind_ok] at hstep
          exact ih' m₁ hstep
    | ok m₁ =>
      rw [hstep, exceptBind_ok] at h
      exact ih m₁ e h

def nodePos (order : List BinstNode) (b : BinstNode) : Nat :=
  order.findIdx (fun x => decide (x = b))

theorem nodePos_cons_ne (a b : BinstNode) (l : List BinstNode) (h : ¬ a = b) :
    nodePos (a :: l) b = nodePos l b + 1 := by
  simp [nodePos, List.findIdx_cons, h]

theorem nodePos_append (P l : List BinstNode) (b : BinstNode) (hb : b ∉ P) :
    nodePos (P ++ l) b = P.length + nodePos l b := by
  induction P with
  | nil => simp [nodePos]
  | cons a P ih =>
    have hab : ¬ a = b := fun e => hb (by rw [e]; exact List.mem_cons_self _ _)
    rw [List.cons_append, nodePos_cons_ne a b _ hab,
      ih (fun hm => hb (List.mem_cons_of_mem _ hm))]
    simp only [List.length_cons]
    omega

theorem nodePos_cons_self (b : BinstNode) (l : List BinstNode) :
    nodePos (b :: l) b = 0 := by
  simp [nodePos, List.findIdx_cons]

theorem mem_prefix_of_pos_lt (P l : List BinstNode) (b x : BinstNode)
    (hbP : b ∉ P) (hpos : nodePos (P ++ b :: l) x < nodePos (P ++ b :: l) b) : x ∈ P := by
  by_contra hxP
  rw [nodePos_append P (b :: l) b hbP, nodePos_cons_self] at hpos
  rw [nodePos_append P (b :: l) x hxP] at hpos
  omega

theorem notMem_prefix_of_append_nodup (P rest : List BinstNode) (b : BinstNode)
    (h : (P ++ b :: rest).Nodup) : b ∉ P := by
  intro hb
  rcases List.nodup_append.mp h with ⟨-, -, hdisj⟩
  exact hdisj hb (List.mem_cons_self _ _)

/-- Linear-wire-discipline well-formedness of a composite bloq graph (§3: a
soquet is produced and consumed exactly once; §4.4: the traversal order is
topological). -/
structure WellFormedGraph (sig : List Register) (g : BinstGraph) : Prop where
  nodupOrder : g.order.Nodup
  rdMem : BinstNode.rightDangle ∈ g.order
  leftMem : ∀ c ∈ g.cxns, c.left.binst ∈ g.order
  notIntoLD : ∀ c ∈ g.cxns, c.right.binst ≠ BinstNode.leftDangle
  notFromRD : ∀ c ∈ g.cxns, c.left.binst ≠ BinstNode.rightDangle
  topo : ∀ c ∈ g.cxns, c.left.binst = BinstNode.leftDangle ∨
    nodePos g.order c.left.binst < nodePos g.order c.right.binst
  nodupLefts : (g.cxns.map (·.left)).Nodup
  nodupRights : (g.cxns.map (·.right)).Nodup
  ldPorts : ∀ c ∈ g.cxns, c.left.binst = BinstNode.leftDangle →
    c.left.reg ∈ leftsOf sig ∧ c.left.idx ∈ allIdxs c.left.reg.shape
  binstPorts : ∀ c ∈ g.cxns, c.left.binst ≠ BinstNode.leftDangle →
    c.left.binst ≠ BinstNode.rightDangle →
    (c.left.reg.side = Side.right ∨ c.left.reg.side = Side.thru) ∧
    (c.left.reg.side = Side.thru → ∃ c' ∈ g.cxns, c'.right = c.left)
  rdCoverage : ∀ reg ∈ rightsOf sig, ∀ idx ∈ allIdxs reg.shape,
    ∃ c ∈ g.cxns, c.right = ⟨BinstNode.rightDangle, reg, idx⟩

/-- Bindings live for every graph edge whose producer has been traversed and
whose consumer has not. -/
def cutCovered (cxns : List Cxn) (P : List BinstNode) (m : QMap) : Prop :=
  ∀ c ∈ cxns, (c.left.binst = BinstNode.leftDangle ∨ c.left.binst ∈ P) →
    c.right.binst ∉ P → m c.left ≠ none

/-- After the RightDangle retirement, bindings live for every output boundary
soquet. -/
def rdCovered (sig : List Register) (P : List BinstNode) (m : QMap) : Prop :=
  BinstNode.rightDangle ∈ P →
    ∀ reg ∈ rightsOf sig, ∀ idx ∈ allIdxs reg.shape,
      m ⟨BinstNode.rightDangle, reg, idx⟩ ≠ none

theorem exportStep_ld (g : BinstGraph) (st : List CirqOp × QMap × Nat) :
    exportStep g st .leftDangle = .ok st := rfl

theorem exportStep_rd (g : BinstGraph) (st : List CirqOp × QMap × Nat) :
    exportStep g st .rightDangle =
      (trackSoqNameChanges (predCxnsOf g .rightDangle) st.2.1) >>=
        (fun m => .ok (st.1, m, st.2.2)) := rfl

theorem exportStep_binst (g : BinstGraph) (st : List CirqOp × QMap × Nat) (i : Nat) :
    exportStep g st (.binst i) =
      (bloqToCirqOp (g.bloqOf i) (predCxnsOf g (.binst i)) (succCxnsOf g (.binst i))
          st.2.1 st.2.2) >>=
        (fun r => .ok (st.1 ++ r.op.toList, r.m, r.qm)) := rfl

theorem mem_predCxnsOf (g : BinstGraph) (b : BinstNode) (c : Cxn) :
    c ∈ predCxnsOf g b ↔ c ∈ g.cxns ∧ c.right.binst = b := by
  simp [predCxnsOf, List.mem_filter]

theorem mem_succCxnsOf (g : BinstGraph) (b : BinstNode) (c : Cxn) :
    c ∈ succCxnsOf g b ↔ c ∈ g.cxns ∧ c.left.binst = b := by
  simp [succCxnsOf, List.mem_filter]

theorem predCxnsOf_lefts_nodup (g : BinstGraph) (b : BinstNode)
    (h : (g.cxns.map (·.left)).Nodup) : ((predCxnsOf g b).map (·.left)).Nodup :=
  h.sublist (List.Sublist.map _ (List.filter_sublist _))

theorem predCxnsOf_rights_nodup (g : BinstGraph) (b : BinstNode)
    (h : (g.cxns.map (·.right)).Nodup) : ((predCxnsOf g b).map (·.right)).Nodup :=
  h.sublist (List.Sublist.map _ (List.filter_sublist _))

theorem succCxnsOf_lefts_nodup (g : BinstGraph) (b : BinstNode)
    (h : (g.cxns.map (·.left)).Nodup) : ((succCxnsOf g b).map (·.left)).Nodup :=
  h.sublist (List.Sublist.map _ (List.filter_sublist _))

theorem cxn_left_inj (cxns : List Cxn) (h : (cxns.map (·.left)).Nodup)
    {c c' : Cxn} (hc : c ∈ cxns) (hc' : c' ∈ cxns) (he : c.left = c'.left) : c = c' :=
  List.inj_on_of_nodup_map h hc hc' he

theorem pred_edge_facts (sig : List Register) (g : BinstGraph)
    (WF : WellFormedGraph sig g) (P rest : List BinstNode) (B : BinstNode)
    (horder : g.order = P ++ B :: rest) (hBLD : B ≠ BinstNode.leftDangle)
    (m : QMap) (hcut : cutCovered g.cxns P m) :
    (∀ c ∈ predCxnsOf g B, m c.left ≠ none) ∧
    (∀ c c', c ∈ predCxnsOf g B → c' ∈ predCxnsOf g B → c.left ≠ c'.right) := by
  have hBP : B ∉ P := notMem_prefix_of_append_nodup P rest B
    (by rw [← horder]; exact WF.nodupOrder)
  constructor
  · intro c hc
    obtain ⟨hcx, hcr⟩ := (mem_predCxnsOf g B c).mp hc
    have hpd : c.left.binst = BinstNode.leftDangle ∨ c.left.binst ∈ P := by
      rcases WF.topo c hcx with h | h
      · exact Or.inl h
      · right
        rw [horder, hcr] at h
        exact mem_prefix_of_pos_lt P rest B c.left.binst hBP h
    refine hcut c hcx hpd ?_
    rw [hcr]
    exact hBP
  · intro c c' hc hc' he
    obtain ⟨hcx, hcr⟩ := (mem_predCxnsOf g B c).mp hc
    obtain ⟨-, hcr'⟩ := (mem_predCxnsOf g B c').mp hc'
    have hb : c.left.binst = c'.right.binst := congrArg Soquet.binst he
    rw [hcr'] at hb
    rcases WF.topo c hcx with h | h
    · rw [h] at hb
      exact hBLD hb.symm
    · rw [horder, hcr] at h
      have hmem : c.left.binst ∈ P := mem_prefix_of_pos_lt P rest B c.left.binst hBP h
      rw [hb] at hmem
      exact hBP hmem

theorem exportStep_sound (sig : List Register) (g : BinstGraph)
    (WF : WellFormedGraph sig g) (P rest : List BinstNode) (B : BinstNode)
    (horder : g.order = P ++ B :: rest)
    (st : List CirqOp × QMap × Nat)
    (hcut : cutCovered g.cxns P st.2.1) (hrd : rdCovered sig P st.2.1) :
    (∀ e, exportStep g st B = .error e → e.isBindingMapMiss = false) ∧
    (∀ st', exportStep g st B = .ok st' →
      cutCovered g.cxns (P ++ [B]) st'.2.1 ∧ rdCovered sig (P ++ [B]) st'.2.1) := by
  have hBP : B ∉ P := notMem_prefix_of_append_nodup P rest B
    (by rw [← horder]; exact WF.nodupOrder)
  cases B with
  | leftDangle =>
    constructor
    · intro e h
      rw [exportStep_ld] at h
      cases h
    · intro st' h
      rw [exportStep_ld] at h
      cases h
      constructor
      · intro c hcx hpd hcons
        refine hcut c hcx ?_ (fun hm => hcons (List.mem_append_left _ hm))
        rcases hpd with h | h
        · exact Or.inl h
        · rcases List.mem_append.mp h with h | h
          · exact Or.inr h
          · exact Or.inl (List.mem_singleton.mp h)
      · intro hrdmem
        refine hrd ?_
        rcases List.mem_append.mp hrdmem with h | h
        · exact h
        · cases List.mem_singleton.mp h
  | rightDangle =>
    obtain ⟨hpredCov, hdisj⟩ := pred_edge_facts sig g WF P rest .rightDangle horder
      (by intro h; cases h) st.2.1 hcut
    have hnodupL := predCxnsOf_lefts_nodup g .rightDangle WF.nodupLefts
    obtain ⟨m₁, hm₁⟩ := track_okEx (predCxnsOf g .rightDangle) st.2.1 hnodupL hpredCov
    constructor
    · intro e h
      rw [exportStep_rd, hm₁, exceptBind_ok] at h
      cases h
    · intro st' h
      rw [exportStep_rd, hm₁, exceptBind_ok] at h
      cases h
      constructor
      · show cutCovered g.cxns (P ++ [BinstNode.rightDangle]) m₁
        intro c hcx hpd hcons
        have hcrB : c.right.binst ≠ BinstNode.rightDangle := by
          intro e
          exact hcons (List.mem_append_right _ (List.mem_singleton.mpr e))
        have hnotpred : c ∉ predCxnsOf g .rightDangle := by
          intro hmem
          exact hcrB ((mem_predCxnsOf _ _ _).mp hmem).2
        have hpdP : c.left.binst = BinstNode.leftDangle ∨ c.left.binst ∈ P := by
          rcases hpd with h | h
          · exact Or.inl h
          · rcases List.mem_append.mp h with h | h
            · exact Or.inr h
            · exact absurd (List.mem_singleton.mp h) (WF.notFromRD c hcx)
        have hbase : st.2.1 c.left ≠ none :=
          hcut c hcx hpdP (fun hm => hcons (List.mem_append_left _ hm))
        refine track_preserve _ _ _ hm₁ c.left ?_ hbase
        intro hmem
        rcases List.mem_map.mp hmem with ⟨c₂, hc₂, he⟩
        have hceq : c₂ = c := cxn_left_inj g.cxns WF.nodupLefts
          ((mem_predCxnsOf _ _ _).mp hc₂).1 hcx he
        rw [hceq] at hc₂
        exact hnotpred hc₂
      · show rdCovered sig (P ++ [BinstNode.rightDangle]) m₁
        intro _ reg hreg idx hidx
        obtain ⟨c, hcx, hcr⟩ := WF.rdCoverage reg hreg idx hidx
        have hcpred : c ∈ predCxnsOf g .rightDangle :=
          (mem_predCxnsOf _ _ _).mpr ⟨hcx, by rw [hcr]⟩
        have hkey := track_targets (predCxnsOf g .rightDangle) st.2.1 m₁ hdisj hm₁ c hcpred
        rw [hcr] at hkey
        exact hkey
  | binst i =>
    obtain ⟨hpredCov, hdisj⟩ := pred_edge_facts sig g WF P rest (.binst i) horder
      (by intro h; cases h) st.2.1 hcut
    have hnodupL := predCxnsOf_lefts_nodup g (.binst i) WF.nodupLefts
    have hnodupR := predCxnsOf_rights_nodup g (.binst i) WF.nodupRights
    obtain ⟨m₁, hm₁⟩ := track_okEx (predCxnsOf g (.binst i)) st.2.1 hnodupL hpredCov
    have hm₁cov : ∀ c ∈ predCxnsOf g (.binst i), m₁ c.right ≠ none :=
      track_targets (predCxnsOf g (.binst i)) st.2.1 m₁ hdisj hm₁
    constructor
    · intro e h
      rw [exportStep_binst] at h
      cases hop : bloqToCirqOp (g.bloqOf i) (predCxnsOf g (.binst i))
          (succCxnsOf g (.binst i)) st.2.1 st.2.2 with
      | ok r => rw [hop, exceptBind_ok] at h; cases h
      | error e' =>
        rw [hop, exceptBind_err] at h
        cases h
        unfold bloqToCirqOp at hop
        rw [hm₁, exceptBind_ok] at hop
        cases hpred : processPredCxns (predCxnsOf g (.binst i))
            (initInQuregs (g.bloqOf i), m₁) with
        | error e2 =>
          rw [hpred, exceptBind_err] at hop
          cases hop
          obtain ⟨s, hs⟩ := pred_no_miss (predCxnsOf g (.binst i)) (initInQuregs (g.bloqOf i))
            m₁ hnodupR hm₁cov _ hpred
          rw [hs]
          rfl
        | ok st₁ =>
          rw [hpred, exceptBind_ok] at hop
          dsimp only at hop
          cases hsucc : processSuccCxns ((g.bloqOf i).asCirqOp st.2.2 st₁.1).2.1
              (succCxnsOf g (.binst i)) st₁.2 with
          | error e3 =>
            rw [hsucc, exceptBind_err] at hop
            cases hop
            exact succ_err_kind (succCxnsOf g (.binst i)) _ _ _ hsucc
          | ok m₃ =>
            rw [hsucc, exceptBind_ok] at hop
            simp only [pure, Except.pure] at hop
            cases hop
    · intro st' h
      rw [exportStep_binst] at h
      cases hop : bloqToCirqOp (g.bloqOf i) (predCxnsOf g (.binst i))
          (succCxnsOf g (.binst i)) st.2.1 st.2.2 with
      | error e' => rw [hop, exceptBind_err] at h; cases h
      | ok r =>
        rw [hop, exceptBind_ok] at h
        cases h
        unfold bloqToCirqOp at hop
        rw [hm₁, exceptBind_ok] at hop
        cases hpred : processPredCxns (predCxnsOf g (.binst i))
            (initInQuregs (g.bloqOf i), m₁) with
        | error e2 => rw [hpred, exceptBind_err] at hop; cases hop
        | ok st₁ =>
          rw [hpred, exceptBind_ok] at hop
          dsimp only at hop
          cases hsucc : processSuccCxns ((g.bloqOf i).asCirqOp st.2.2 st₁.1).2.1
              (succCxnsOf g (.binst i)) st₁.2 with
          | error e3 => rw [hsucc, exceptBind_err] at hop; cases hop
          | ok m₃ =>
            rw [hsucc, exceptBind_ok] at hop
            simp only [pure, Except.pure, Except.ok.injEq] at hop
            cases hop
            have hkeep : ∀ s : Soquet, s ∉ (predCxnsOf g (.binst i)).map (·.left) →
                s.binst ≠ BinstNode.binst i → st.2.1 s ≠ none → m₃ s ≠ none := by
              intro s hsl hsb hbase
              have h1 : m₁ s ≠ none := track_preserve _ _ _ hm₁ s hsl hbase
              have h2 : st₁.2 s = m₁ s := by
                refine processPredCxns_frame (predCxnsOf g (.binst i))
                  (initInQuregs (g.bloqOf i), m₁) st₁ hpred s (Or.inl ?_)
                intro hmem
                rcases List.mem_map.mp hmem with ⟨c₂, hc₂, he⟩
                have := ((mem_predCxnsOf _ _ _).mp hc₂).2
                rw [he] at this
                exact hsb this
              refine succ_preserve (succCxnsOf g (.binst i)) _ st₁.2 m₃ hsucc s ?_
              rw [h2]
              exact h1
            constructor
            · show cutCovered g.cxns (P ++ [BinstNode.binst i]) m₃
              intro c hcx hpd hcons
              by_cases hprod : c.left.binst = BinstNode.binst i
              · have hports := WF.binstPorts c hcx
                  (fun h' => by rw [hprod] at h'; cases h')
                  (fun h' => by rw [hprod] at h'; cases h')
                rcases hports.1 with hside | hside
                · have hcsucc : c ∈ succCxnsOf g (.binst i) :=
                    (mem_succCxnsOf _ _ _).mpr ⟨hcx, hprod⟩
                  exact succ_right_covered _ (succCxnsOf g (.binst i)) st₁.2 m₃
                    (succCxnsOf_lefts_nodup g _ WF.nodupLefts) hsucc c hcsucc hside
                · obtain ⟨c', hc'x, hc'r⟩ := hports.2 hside
                  have hc'pred : c' ∈ predCxnsOf g (.binst i) :=
                    (mem_predCxnsOf _ _ _).mpr ⟨hc'x, by rw [hc'r, hprod]⟩
                  have h1 : m₁ c.left ≠ none := by
                    have := hm₁cov c' hc'pred
                    rw [hc'r] at this
                    exact this
                  have h2 : st₁.2 c.left = m₁ c.left := by
                    refine processPredCxns_frame (predCxnsOf g (.binst i))
                      (initInQuregs (g.bloqOf i), m₁) st₁ hpred c.left (Or.inr ?_)
                    rw [hside]
                    decide
                  refine succ_preserve (succCxnsOf g (.binst i)) _ st₁.2 m₃ hsucc c.left ?_
                  rw [h2]
                  exact h1
              · have hpdP : c.left.binst = BinstNode.leftDangle ∨ c.left.binst ∈ P := by
                  rcases hpd with h | h
                  · exact Or.inl h
                  · rcases List.mem_append.mp h with h | h
                    · exact Or.inr h
                    · exact absurd (List.mem_singleton.mp h) hprod
                have hbase : st.2.1 c.left ≠ none :=
                  hcut c hcx hpdP (fun hm => hcons (List.mem_append_left _ hm))
                refine hkeep c.left ?_ hprod hbase
                intro hmem
                rcases List.mem_map.mp hmem with ⟨c₂, hc₂, he⟩
                have hceq : c₂ = c := cxn_left_inj g.cxns WF.nodupLefts
                  ((mem_predCxnsOf _ _ _).mp hc₂).1 hcx he
                rw [hceq] at hc₂
                have := ((mem_predCxnsOf _ _ _).mp hc₂).2
                exact hcons (List.mem_append_right _ (List.mem_singleton.mpr this))
            · show rdCovered sig (P ++ [BinstNode.binst i]) m₃
              intro hrdmem reg hreg idx hidx
              have hrdP : BinstNode.rightDangle ∈ P := by
                rcases List.mem_append.mp hrdmem with h | h
                · exact h
                · cases List.mem_singleton.mp h
              have hbase : st.2.1 ⟨BinstNode.rightDangle, reg, idx⟩ ≠ none :=
                hrd hrdP reg hreg idx hidx
              refine hkeep ⟨BinstNode.rightDangle, reg, idx⟩ ?_ (by intro h; cases h) hbase
              intro hmem
              rcases List.mem_map.mp hmem with ⟨c₂, hc₂, he⟩
              have hc₂x := ((mem_predCxnsOf _ _ _).mp hc₂).1
              have : c₂.left.binst = BinstNode.rightDangle := by
                rw [he]
              exact WF.notFromRD c₂ hc₂x this

theorem exportFold_sound (sig : List Register) (g : BinstGraph)
    (WF : WellFormedGraph sig g) :
    ∀ (rest P : List BinstNode) (st : List CirqOp × QMap × Nat),
      g.order = P ++ rest →
      cutCovered g.cxns P st.2.1 → rdCovered sig P st.2.1 →
      (∀ e, rest.foldlM (exportStep g) st = .error e → e.isBindingMapMiss = false) ∧
      (∀ st', rest.foldlM (exportStep g) st = .ok st' →
        cutCovered g.cxns g.order st'.2.1 ∧ rdCovered sig g.order st'.2.1) := by
  intro rest
  induction rest with
  | nil =>
    intro P st horder hcut hrd
    constructor
    · intro e h
      simp only [List.foldlM_nil] at h
      cases h
    · intro st' h
      simp only [List.foldlM_nil] at h
      cases h
      rw [List.append_nil] at horder
      rw [horder]
      exact ⟨hcut, hrd⟩
  | cons B rest' ih =>
    intro P st horder hcut hrd
    have hstep := exportStep_sound sig g WF P rest' B horder st hcut hrd
    rw [List.foldlM_cons]
    constructor
    · intro e h
      cases hs : exportStep g st B with
      | error e' =>
        rw [hs, exceptBind_err] at h
        cases h
        exact hstep.1 _ hs
      | ok st₁ =>
        rw [hs, exceptBind_ok] at h
        obtain ⟨hc₁, hr₁⟩ := hstep.2 st₁ hs
        exact (ih (P ++ [B]) st₁ (by rw [horder]; simp) hc₁ hr₁).1 e h
    · intro st' h
      cases hs : exportStep g st B with
      | error e' => rw [hs, exceptBind_err] at h; cases h
      | ok st₁ =>
        rw [hs, exceptBind_ok] at h
        obtain ⟨hc₁, hr₁⟩ := hstep.2 st₁ hs
        exact (ih (P ++ [B]) st₁ (by rw [horder]; simp) hc₁ hr₁).2 st' h

theorem finalCells_okEx (m : QMap) (reg : Register) (idxs : List Idx) :
    ∀ (acc : Cells), (∀ idx ∈ idxs, m ⟨BinstNode.rightDangle, reg, idx⟩ ≠ none) →
      ∃ cells, idxs.foldlM (finalCell m reg) acc = .ok cells := by
  induction idxs with
  | nil =>
    intro acc _
    exact ⟨acc, rfl⟩
  | cons idx rest ih =>
    intro acc hcov
    rw [List.foldlM_cons]
    cases hq : m ⟨BinstNode.rightDangle, reg, idx⟩ with
    | none => exact absurd hq (hcov idx (List.mem_cons_self _ _))
    | some qreg =>
      have hstep : finalCell m reg acc idx = .ok (acc ++ [(idx, qreg.qubits)]) := by
        unfold finalCell
        rw [hq]
      rw [hstep, exceptBind_ok]
      exact ih _ (fun j hj => hcov j (List.mem_cons_of_mem _ hj))

theorem buildOut_fold_okEx (m : QMap) (regs : List Register) :
    ∀ (acc : Quregs), (∀ reg ∈ regs, ∀ idx ∈ allIdxs reg.shape,
        m ⟨BinstNode.rightDangle, reg, idx⟩ ≠ none) →
      ∃ out, regs.foldlM (buildOutStep m) acc = .ok out := by
  induction regs with
  | nil =>
    intro acc _
    exact ⟨acc, rfl⟩
  | cons reg rest ih =>
    intro acc hcov
    rw [List.foldlM_cons]
    obtain ⟨cells, hcells⟩ := finalCells_okEx m reg (allIdxs reg.shape) []
      (hcov reg (List.mem_cons_self _ _))
    have hcells' : finalQuregCells m reg = .ok cells := hcells
    have hstep : buildOutStep m acc reg = .ok (acc ++ [(reg.name, cells)]) := by
      unfold buildOutStep
      rw [hcells', exceptBind_ok]
      rfl
    rw [hstep, exceptBind_ok]
    exact ih _ (fun r hr => hcov r (List.mem_cons_of_mem _ hr))

theorem checkQuregNames_err (sig : List Register) (cirqQuregs : Quregs) (e : ExportErr)
    (h : checkQuregNames sig cirqQuregs = .error e) : ∃ n, e = .extraQuregName n := by
  unfold checkQuregNames at h
  split at h
  next n hn =>
    cases h
    exact ⟨n, rfl⟩
  next hn => cases h

theorem export_wf_no_miss (sig : List Register) (quregs : Quregs) (g : BinstGraph)
    (qm : Nat) (WF : WellFormedGraph sig g) :
    ∀ e, cbloqToCirqCircuit sig quregs g qm = .error e → e.isBindingMapMiss = false := by
  intro e h
  unfold cbloqToCirqCircuit at h
  cases hchk : checkQuregNames sig quregs with
  | error e1 =>
    rw [hchk, exceptBind_err] at h
    cases h
    obtain ⟨n, hn⟩ := checkQuregNames_err sig quregs _ hchk
    rw [hn]
    rfl
  | ok u =>
    rw [hchk, exceptBind_ok] at h
    cases hinit : initialQMap (leftsOf sig) quregs with
    | error e2 =>
      rw [hinit, exceptBind_err] at h
      cases h
      unfold initialQMap at hinit
      exact initialQMap_err_kind (leftsOf sig) quregs _ _ hinit
    | ok m₀ =>
      rw [hinit, exceptBind_ok] at h
      have hcut₀ : cutCovered g.cxns [] m₀ := by
        intro c hcx hpd hcons
        have hLD : c.left.binst = BinstNode.leftDangle := by
          rcases hpd with h' | h'
          · exact h'
          · cases h'
        obtain ⟨hreg, hidx⟩ := WF.ldPorts c hcx hLD
        have hm₀ : m₀ ⟨BinstNode.leftDangle, c.left.reg, c.left.idx⟩ ≠ none := by
          refine initialQMap_covers (leftsOf sig) quregs (fun _ => none) m₀ ?_
            c.left.reg hreg c.left.idx hidx
          unfold initialQMap at hinit
          exact hinit
        have hsoq : (⟨BinstNode.leftDangle, c.left.reg, c.left.idx⟩ : Soquet) = c.left := by
          rw [← hLD]
        rw [← hsoq]
        exact hm₀
      have hrd₀ : rdCovered sig [] m₀ := by
        intro h'
        cases h'
      cases hfold : g.order.foldlM (exportStep g) (([] : List CirqOp), m₀, qm) with
      | error e3 =>
        rw [hfold, exceptBind_err] at h
        cases h
        exact (exportFold_sound sig g WF g.order [] _ (by simp) hcut₀ hrd₀).1 _ hfold
      | ok st' =>
        rw [hfold, exceptBind_ok] at h
        obtain ⟨-, hr'⟩ := (exportFold_sound sig g WF g.order [] _ (by simp) hcut₀ hrd₀).2
          st' hfold
        have hcov : ∀ reg ∈ rightsOf sig, ∀ idx ∈ allIdxs reg.shape,
            st'.2.1 ⟨BinstNode.rightDangle, reg, idx⟩ ≠ none := hr' WF.rdMem
        obtain ⟨out, hout⟩ := buildOut_fold_okEx st'.2.1 (rightsOf sig) [] hcov
        have hout' : buildOutQuregs sig st'.2.1 = .ok out := hout
        rw [hout', exceptBind_ok] at h
        simp only [pure, Except.pure] at h
        cases h

/-- C8: a soquet expected in the binding map but absent is a fatal internal
consistency error — the rename loop raises `KeyError` at the first absent
source, the input loop's `assert soq in qvar_to_qreg` fails on an absent
consumed soquet, `_bloq_to_cirq_op` surfaces the rename loop's error
unchanged — and on every well-formed graph (linear wire discipline) every
error the exporter can return is of a different kind: the binding-map-miss
branches are unreachable. -/
theorem binding_map_miss_is_fatal :
    (∀ (c : Cxn) (cxns : List Cxn) (m : QMap), m c.left = none →
      trackSoqNameChanges (c :: cxns) m = .error (.trackKeyError c.left)) ∧
    (∀ (c : Cxn) (st : Quregs × QMap), st.2 c.right = none →
      processPredCxn c st = .error (.soqNotInMap c.right)) ∧
    (∀ (bloq : ExportBloq) (pred succ : List Cxn) (m : QMap) (qm : Nat) (e : ExportErr),
      trackSoqNameChanges pred m = .error e →
      bloqToCirqOp bloq pred succ m qm = .error e) ∧
    (∀ (sig : List Register) (quregs : Quregs) (g : BinstGraph) (qm : Nat),
      WellFormedGraph sig g →
      ∀ e, cbloqToCirqCircuit sig quregs g qm = .error e →
        e.isBindingMapMiss = false) := by
  refine ⟨?_, ?_, ?_, ?_⟩
  · intro c cxns m hm
    unfold trackSoqNameChanges
    rw [List.foldlM_cons, trackStep_of_none m c hm, exceptBind_err]
  · intro c st hr
    unfold processPredCxn
    rw [hr]
  · intro bloq pred succ m qm e htrack
    unfold bloqToCirqOp
    rw [htrack, exceptBind_err]
  · intro sig quregs g qm WF e h
    exact export_wf_no_miss sig quregs g qm WF e h

/-- The single-CNOT graph is well-formed. -/
def wfCnot : WellFormedGraph cnotSig cnotGraph :=
  ⟨by decide, by decide, by decide, by decide, by decide, by decide, by decide,
   by decide, by decide, by decide, by decide⟩

/-- Witness for C8 at concrete inputs: a missing source errors in the rename
loop, a missing consumed soquet errors in the input loop, `_bloq_to_cirq_op`
surfaces the rename error unchanged, and the well-formed CNOT graph's only
failure on empty input arrays is a (non-miss) missing-input error. -/
theorem binding_map_miss_is_fatal_witness :
    trackSoqNameChanges [⟨wSrc, wTgt⟩] (fun _ => none) = .error (.trackKeyError wSrc) ∧
    processPredCxn ⟨wSrc, wTgt⟩ ([], fun _ => none) = .error (.soqNotInMap wTgt) ∧
    bloqToCirqOp cnotExportBloq [⟨wSrc, wTgt⟩] [] (fun _ => none) 0 =
      .error (.trackKeyError wSrc) ∧
    (ExportErr.leftQuregMissing "ctrl" []).isBindingMapMiss = false :=
  ⟨binding_map_miss_is_fatal.1 ⟨wSrc, wTgt⟩ [] (fun _ => none) rfl,
   binding_map_miss_is_fatal.2.1 ⟨wSrc, wTgt⟩ ([], fun _ => none) rfl,
   binding_map_miss_is_fatal.2.2.1 cnotExportBloq [⟨wSrc, wTgt⟩] [] (fun _ => none) 0
     (.trackKeyError wSrc) rfl,
   binding_map_miss_is_fatal.2.2.2 cnotSig [] cnotGraph 0 wfCnot
     (.leftQuregMissing "ctrl" []) rfl⟩

/-! ## C1: round-trip through the importer

`cirq_optree_to_cbloq` (the Circuit-to-Graph Importer) is not under `src/`
(only its tests are), so it is modelled from the spec §4.5: with no explicit
signature, a default signature with one shape-`(Q,)` qubit register covering
the referenced qubits in first-use order is synthesized; each external
operation is wrapped (Gate Shim / `CirqGateAsBloq`, whose native call per §6
returns the gate on its flattened qubits with outputs equal to inputs) and
added against the current wire bindings.  For operation sequences acting on
individual qubits no reshape operations are needed, and the resulting
composite graph threads one wire per qubit through the operations that use
it, in sequence order (a valid topological order per §4.4 step 2). -/

namespace RoundTrip

def addNew (seen : List Qubit) (qs : List Qubit) : List Qubit :=
  qs.foldl (fun acc q => if q ∈ acc then acc else acc ++ [q]) seen

/-- The referenced qubits in first-use order (the importer's default
register ordering).  Modelled from the spec: "one shape-(Q,) qubit register
covering exactly the qubits referenced in the sequence, in first-use
order". -/
def firstUses (ops : List CirqOp) : List Qubit :=
  ops.foldl (fun acc op => addNew acc op.qubits) []

def qubitsReg (n : Nat) : Register := ⟨"qubits", qbitDType, [n], 1, Side.thru⟩

def opReg (k : Nat) : Register := ⟨"q", qbitDType, [k], 1, Side.thru⟩

def dummyOp : CirqOp := ⟨"", []⟩

/-- Modelled from the spec: the wrapped external gate (`CirqGateAsBloq`,
§4.5/§6) has one THRU register `q` of shape `(k,)` and its native call
returns the original gate applied to the flattened input qubits, with output
quregs equal to the input quregs. -/
def gateBloq (op : CirqOp) : ExportBloq where
  signature := [opReg op.qubits.length]
  asCirqOp := fun qm inQ =>
    (some ⟨op.gate,
        ((List.range op.qubits.length).map
          (fun j => (Quregs.cell? inQ "q" [j]).getD [])).flatten⟩,
      inQ, qm)

/-- First position of qubit `q` in a qubit list. -/
def usesIn (qs : List Qubit) (q : Qubit) : Option Nat :=
  match qs with
  | [] => none
  | x :: rest => if x = q then some 0 else (usesIn rest q).map (· + 1)

/-- The last operation index before `i` that uses `q`, with `q`'s position in
that operation. -/
def lastUseBefore (ops : List CirqOp) (i : Nat) (q : Qubit) : Option (Nat × Nat) :=
  match i with
  | 0 => none
  | i + 1 =>
    match usesIn (ops.getD i dummyOp).qubits q with
    | some j => some (i, j)
    | none => lastUseBefore ops i q

/-- The soquet holding qubit `q` just before operation `i` is added: the
output port of `q`'s last use, or the boundary register cell at `q`'s
first-use position. -/
def prevSoq (ops : List CirqOp) (Q : List Qubit) (i : Nat) (q : Qubit) : Soquet :=
  match lastUseBefore ops i q with
  | some (i', j') => ⟨.binst i', opReg (ops.getD i' dummyOp).qubits.length, [j']⟩
  | none => ⟨.leftDangle, qubitsReg Q.length, [Q.findIdx (fun x => decide (x = q))]⟩

def opCxns (ops : List CirqOp) (Q : List Qubit) (i : Nat) : List Cxn :=
  (List.range (ops.getD i dummyOp).qubits.length).map
    (fun j => ⟨prevSoq ops Q i ((ops.getD i dummyOp).qubits.getD j 0),
               ⟨.binst i, opReg (ops.getD i dummyOp).qubits.length, [j]⟩⟩)

def rdCxns (ops : List CirqOp) (Q : List Qubit) : List Cxn :=
  (List.range Q.length).map
    (fun p => ⟨prevSoq ops Q ops.length (Q.getD p 0),
               ⟨.rightDangle, qubitsReg Q.length, [p]⟩⟩)

def impCxns (ops : List CirqOp) (Q : List Qubit) : List Cxn :=
  (List.range ops.length).flatMap (opCxns ops Q) ++ rdCxns ops Q

/-- The imported composite graph: one instance per external operation in
sequence order, wires threaded per qubit. -/
def impGraph (ops : List CirqOp) : BinstGraph where
  order := .leftDangle :: ((List.range ops.length).map .binst ++ [.rightDangle])
  cxns := impCxns ops (firstUses ops)
  bloqOf := fun i => gateBloq (ops.getD i dummyOp)

def impSig (ops : List CirqOp) : List Register := [qubitsReg (firstUses ops).length]

def impQuregs (ops : List CirqOp) : Quregs :=
  [("qubits", (List.range (firstUses ops).length).map
      (fun p => ([p], [(firstUses ops).getD p 0])))]

/-- The binding map the re-export traversal holds just before operation `i`:
`q`'s current wire soquet bound to `[q]`, for each referenced qubit. -/
def impMapAt (ops : List CirqOp) (Q : List Qubit) (i : Nat) : QMap :=
  fun s =>
    match (List.range Q.length).find?
        (fun p => decide (s = prevSoq ops Q i (Q.getD p 0))) with
    | some p => some ⟨[Q.getD p 0], qbitDType⟩
    | none => none

theorem usesIn_some (qs : List Qubit) (q : Qubit) (j : Nat) (h : usesIn qs q = some j) :
    j < qs.length ∧ qs.getD j 0 = q := by
  induction qs generalizing j with
  | nil => cases h
  | cons x rest ih =>
    unfold usesIn at h
    by_cases hx : x = q
    · rw [if_pos hx] at h
      cases h
      exact ⟨Nat.succ_pos _, hx⟩
    · rw [if_neg hx] at h
      cases hr : usesIn rest q with
      | none => rw [hr] at h; cases h
      | some j' =>
        rw [hr] at h
        cases h
        obtain ⟨h1, h2⟩ := ih j' hr
        exact ⟨Nat.succ_lt_succ h1, h2⟩

theorem usesIn_none (qs : List Qubit) (q : Qubit) :
    usesIn qs q = none ↔ q ∉ qs := by
  induction qs with
  | nil => simp [usesIn]
  | cons x rest ih =>
    unfold usesIn
    by_cases hx : x = q
    · simp [hx]
    · simp only [if_neg hx, List.mem_cons]
      constructor
      · intro h hc
        rcases hc with hc | hc
        · exact hx hc.symm
        · cases hr : usesIn rest q with
          | none => exact (ih.mp hr) hc
          | some j => rw [hr] at h; cases h
      · intro h
        have : q ∉ rest := fun hc => h (Or.inr hc)
        rw [ih.mpr this]
        rfl

theorem usesIn_getD_nodup (qs : List Qubit) (hnd : qs.Nodup) (j : Nat) (hj : j < qs.length) :
    usesIn qs (qs.getD j 0) = some j := by
  induction qs generalizing j with
  | nil => cases hj
  | cons x rest ih =>
    cases j with
    | zero => simp [usesIn]
    | succ j' =>
      have hj' : j' < rest.length := Nat.lt_of_succ_lt_succ hj
      have hmem : rest.getD j' 0 ∈ rest := by
        rw [List.getD_eq_getElem _ _ hj']
        exact List.getElem_mem _
      have hx : ¬ x = (x :: rest).getD (j' + 1) 0 := by
        simp only [List.getD_cons_succ]
        intro he
        exact (List.nodup_cons.mp hnd).1 (he ▸ hmem)
      unfold usesIn
      rw [if_neg hx]
      simp only [List.getD_cons_succ]
      rw [ih (List.nodup_cons.mp hnd).2 j' hj']
      rfl

theorem mem_addNew (qs : List Qubit) :
    ∀ (seen : List Qubit) (q : Qubit), q ∈ addNew seen qs ↔ q ∈ seen ∨ q ∈ qs := by
  induction qs with
  | nil => simp [addNew]
  | cons x rest ih =>
    intro seen q
    unfold addNew at ih ⊢
    rw [List.foldl_cons]
    by_cases hx : x ∈ seen
    · rw [if_pos hx, ih]
      constructor
      · rintro (h | h)
        · exact Or.inl h
        · exact Or.inr (List.mem_cons_of_mem _ h)
      · rintro (h | h)
        · exact Or.inl h
        · rcases List.mem_cons.mp h with rfl | h
          · exact Or.inl hx
          · exact Or.inr h
    · rw [if_neg hx, ih]
      simp only [List.mem_append, List.mem_singleton, List.mem_cons]
      tauto

theorem nodup_addNew (qs : List Qubit) :
    ∀ (seen : List Qubit), seen.Nodup → (addNew seen qs).Nodup := by
  induction qs with
  | nil =>
    intro seen h
    exact h
  | cons x rest ih =>
    intro seen h
    unfold addNew at ih ⊢
    rw [List.foldl_cons]
    by_cases hx : x ∈ seen
    · rw [if_pos hx]
      exact ih seen h
    · rw [if_neg hx]
      refine ih _ ?_
      rw [List.nodup_append]
      exact ⟨h, List.nodup_singleton _, by simpa using fun hc => hx hc⟩

theorem mem_firstUses_aux (ops : List CirqOp) :
    ∀ (seen : List Qubit) (q : Qubit),
      q ∈ ops.foldl (fun acc op => addNew acc op.qubits) seen ↔
        q ∈ seen ∨ ∃ op ∈ ops, q ∈ op.qubits := by
  induction ops with
  | nil => simp
  | cons op rest ih =>
    intro seen q
    rw [List.foldl_cons, ih, mem_addNew]
    constructor
    · rintro ((h | h) | ⟨op', hop', h⟩)
      · exact Or.inl h
      · exact Or.inr ⟨op, List.mem_cons_self _ _, h⟩
      · exact Or.inr ⟨op', List.mem_cons_of_mem _ hop', h⟩
    · rintro (h | ⟨op', hop', h⟩)
      · exact Or.inl (Or.inl h)
      · rcases List.mem_cons.mp hop' with rfl | hop'
        · exact Or.inl (Or.inr h)
        · exact Or.inr ⟨op', hop', h⟩

theorem mem_firstUses (ops : List CirqOp) (q : Qubit) :
    q ∈ firstUses ops ↔ ∃ op ∈ ops, q ∈ op.qubits := by
  unfold firstUses
  rw [mem_firstUses_aux]
  simp

theorem nodup_firstUses (ops : List CirqOp) : (firstUses ops).Nodup := by
  unfold firstUses
  have : ∀ (l : List CirqOp) (seen : List Qubit), seen.Nodup →
      (l.foldl (fun acc op => addNew acc op.qubits) seen).Nodup := by
    intro l
    induction l with
    | nil => intro seen h; exact h
    | cons op rest ih =>
      intro seen h
      rw [List.foldl_cons]
      exact ih _ (nodup_addNew op.qubits seen h)
  exact this ops [] (List.nodup_nil)

theorem findIdx_getD_nodup (Q : List Qubit) (hnd : Q.Nodup) (p : Nat) (hp : p < Q.length) :
    Q.findIdx (fun x => decide (x = Q.getD p 0)) = p := by
  induction Q generalizing p with
  | nil => cases hp
  | cons x rest ih =>
    cases p with
    | zero => simp [List.findIdx_cons]
    | succ p' =>
      have hp' : p' < rest.length := Nat.lt_of_succ_lt_succ hp
      have hmem : rest.getD p' 0 ∈ rest := by
        rw [List.getD_eq_getElem _ _ hp']
        exact List.getElem_mem _
      have hx : ¬ x = (x :: rest).getD (p' + 1) 0 := by
        simp only [List.getD_cons_succ]
        intro he
        exact (List.nodup_cons.mp hnd).1 (he ▸ hmem)
      rw [List.findIdx_cons]
      simp only [List.getD_cons_succ] at hx ⊢
      rw [decide_eq_false hx]
      simp only [cond_false]
      rw [ih (List.nodup_cons.mp hnd).2 p' hp']

theorem getD_findIdx_mem (Q : List Qubit) (q : Qubit) (hq : q ∈ Q) :
    Q.findIdx (fun x => decide (x = q)) < Q.length ∧
      Q.getD (Q.findIdx (fun x => decide (x = q))) 0 = q := by
  induction Q with
  | nil => cases hq
  | cons x rest ih =>
    rw [List.findIdx_cons]
    by_cases hx : x = q
    · rw [decide_eq_true hx]
      simp only [cond_true]
      exact ⟨Nat.succ_pos _, hx⟩
    · rw [decide_eq_false hx]
      simp only [cond_false]
      have hq' : q ∈ rest := by
        rcases List.mem_cons.mp hq with rfl | h
        · exact absurd rfl hx
        · exact h
      obtain ⟨h1, h2⟩ := ih hq'
      exact ⟨Nat.succ_lt_succ h1, by simpa using h2⟩

theorem lastUseBefore_some (ops : List CirqOp) (i : Nat) (q : Qubit) (i' j' : Nat)
    (h : lastUseBefore ops i q = some (i', j')) :
    i' < i ∧ usesIn (ops.getD i' dummyOp).qubits q = some j' := by
  induction i with
  | zero => cases h
  | succ i ih =>
    unfold lastUseBefore at h
    cases hu : usesIn (ops.getD i dummyOp).qubits q with
    | some j =>
      rw [hu] at h
      cases h
      exact ⟨Nat.lt_succ_self _, hu⟩
    | none =>
      rw [hu] at h
      obtain ⟨h1, h2⟩ := ih h
      exact ⟨Nat.lt_succ_of_lt h1, h2⟩

theorem lastUseBefore_step_used (ops : List CirqOp) (i : Nat) (q : Qubit) (j : Nat)
    (hu : usesIn (ops.getD i dummyOp).qubits q = some j) :
    lastUseBefore ops (i + 1) q = some (i, j) := by
  show (match usesIn (ops.getD i dummyOp).qubits q with
    | some j => some (i, j)
    | none => lastUseBefore ops i q) = some (i, j)
  rw [hu]

theorem lastUseBefore_step_unused (ops : List CirqOp) (i : Nat) (q : Qubit)
    (hu : usesIn (ops.getD i dummyOp).qubits q = none) :
    lastUseBefore ops (i + 1) q = lastUseBefore ops i q := by
  show (match usesIn (ops.getD i dummyOp).qubits q with
    | some j => some (i, j)
    | none => lastUseBefore ops i q) = lastUseBefore ops i q
  rw [hu]

theorem prevSoq_step_used (ops : List CirqOp) (Q : List Qubit) (i : Nat) (q : Qubit)
    (j : Nat) (hu : usesIn (ops.getD i dummyOp).qubits q = some j) :
    prevSoq ops Q (i + 1) q = ⟨.binst i, opReg (ops.getD i dummyOp).qubits.length, [j]⟩ := by
  unfold prevSoq
  rw [lastUseBefore_step_used ops i q j hu]

theorem prevSoq_step_unused (ops : List CirqOp) (Q : List Qubit) (i : Nat) (q : Qubit)
    (hu : usesIn (ops.getD i dummyOp).qubits q = none) :
    prevSoq ops Q (i + 1) q = prevSoq ops Q i q := by
  unfold prevSoq
  rw [lastUseBefore_step_unused ops i q hu]

theorem prevSoq_binst_facts (ops : List CirqOp) (Q : List Qubit) (i : Nat) (q : Qubit) :
    (∃ i' j', lastUseBefore ops i q = some (i', j') ∧ i' < i ∧
      usesIn (ops.getD i' dummyOp).qubits q = some j' ∧
      prevSoq ops Q i q = ⟨.binst i', opReg (ops.getD i' dummyOp).qubits.length, [j']⟩) ∨
    (lastUseBefore ops i q = none ∧
      prevSoq ops Q i q =
        ⟨.leftDangle, qubitsReg Q.length, [Q.findIdx (fun x => decide (x = q))]⟩) := by
  cases hl : lastUseBefore ops i q with
  | some pr =>
    obtain ⟨i', j'⟩ := pr
    obtain ⟨h1, h2⟩ := lastUseBefore_some ops i q i' j' hl
    left
    refine ⟨i', j', rfl, h1, h2, ?_⟩
    unfold prevSoq
    rw [hl]
  | none =>
    right
    refine ⟨rfl, ?_⟩
    unfold prevSoq
    rw [hl]

theorem prevSoq_not_rd (ops : List CirqOp) (Q : List Qubit) (i : Nat) (q : Qubit) :
    (prevSoq ops Q i q).binst ≠ BinstNode.rightDangle := by
  rcases prevSoq_binst_facts ops Q i q with ⟨i', j', -, -, -, hp⟩ | ⟨-, hp⟩ <;>
    rw [hp] <;> intro h <;> cases h

theorem prevSoq_inj (ops : List CirqOp) (Q : List Qubit) (i : Nat) (hnd : Q.Nodup)
    (q q' : Qubit) (hq : q ∈ Q) (hq' : q' ∈ Q)
    (h : prevSoq ops Q i q = prevSoq ops Q i q') : q = q' := by
  rcases prevSoq_binst_facts ops Q i q with ⟨i1, j1, -, -, hu1, hp1⟩ | ⟨-, hp1⟩ <;>
    rcases prevSoq_binst_facts ops Q i q' with ⟨i2, j2, -, -, hu2, hp2⟩ | ⟨-, hp2⟩ <;>
    rw [hp1, hp2] at h
  · have hi : i1 = i2 := by
      have hb := congrArg Soquet.binst h
      simpa using hb
    have hjj : j1 = j2 := by
      have hx := congrArg Soquet.idx h
      simpa using hx
    rw [hi, hjj] at hu1
    have e1 := (usesIn_some _ _ _ hu1).2
    have e2 := (usesIn_some _ _ _ hu2).2
    rw [← e1, ← e2]
  · exact absurd (congrArg Soquet.binst h) (by simp)
  · exact absurd (congrArg Soquet.binst h) (by simp)
  · have hidx := congrArg Soquet.idx h
    simp only [List.cons.injEq] at hidx
    have hfi : Q.findIdx (fun x => decide (x = q)) = Q.findIdx (fun x => decide (x = q')) :=
      hidx.1
    obtain ⟨-, e1⟩ := getD_findIdx_mem Q q hq
    obtain ⟨-, e2⟩ := getD_findIdx_mem Q q' hq'
    rw [← e1, ← e2, hfi]

theorem find?_congr {α : Type} (l : List α) (p p' : α → Bool)
    (h : ∀ x ∈ l, p x = p' x) : l.find? p = l.find? p' := by
  induction l with
  | nil => rfl
  | cons x rest ih =>
    rw [List.find?_cons, List.find?_cons, h x (List.mem_cons_self _ _)]
    cases p' x with
    | true => rfl
    | false => exact ih (fun y hy => h y (List.mem_cons_of_mem _ hy))

theorem allIdxs_single (n : Nat) : allIdxs [n] = (List.range n).map (fun i => [i]) := by
  unfold allIdxs
  unfold allIdxs
  induction List.range n with
  | nil => rfl
  | cons x rest ih =>
    rw [List.flatMap_cons, List.map_cons, ih]
    rfl

theorem getD_range_map {α : Type} (l : List α) (d : α) :
    (List.range l.length).map (fun j => l.getD j d) = l := by
  apply List.ext_getElem
  · simp
  · intro n h1 h2
    simp [List.getD, List.getElem?_eq_getElem h2]

theorem cells_get_set_self (cs : Cells) (idx : Idx) (v : List Qubit) :
    Cells.get? (Cells.set cs idx v) idx = some v := by
  unfold Cells.set Cells.get?
  rw [List.find?_cons]
  simp

theorem cells_get_set_ne (cs : Cells) (idx idx' : Idx) (v : List Qubit) (h : idx' ≠ idx) :
    Cells.get? (Cells.set cs idx v) idx' = Cells.get? cs idx' := by
  unfold Cells.set Cells.get?
  rw [List.find?_cons, decide_eq_false (show ¬ ((idx, v).1 = idx') from fun e => h e.symm)]
  simp only [cond_false]
  congr 1
  induction cs with
  | nil => rfl
  | cons c rest ih =>
    rw [List.filter_cons]
    by_cases hc : c.1 = idx
    · rw [if_neg (by simp [hc])]
      conv_rhs => rw [List.find?_cons]
      have hfalse : decide (c.1 = idx') = false := by
        apply decide_eq_false
        rw [hc]
        exact fun e => h e.symm
      rw [hfalse]
      exact ih
    · rw [if_pos (by simp [hc])]
      conv_lhs => rw [List.find?_cons]
      conv_rhs => rw [List.find?_cons]
      cases hd : decide (c.1 = idx') with
      | true => rfl
      | false => exact ih

theorem quregs_get_setCell (qs : Quregs) (name name' : String) (idx : Idx) (v : List Qubit) :
    Quregs.get? (Quregs.setCell qs name idx v) name' =
      if name' = name then (Quregs.get? qs name').map (fun cs => Cells.set cs idx v)
      else Quregs.get? qs name' := by
  induction qs with
  | nil =>
    unfold Quregs.setCell Quregs.get?
    simp only [List.map_nil, List.find?_nil, Option.map_none']
    split <;> rfl
  | cons kv rest ih =>
    unfold Quregs.setCell Quregs.get? at ih ⊢
    rw [List.map_cons]
    by_cases hk : kv.1 = name
    · rw [if_pos hk]
      rw [List.find?_cons, List.find?_cons]
      by_cases hk' : kv.1 = name'
      · rw [decide_eq_true hk']
        simp only [cond_true, Option.map_some']
        rw [if_pos (by rw [← hk', hk])]
      · rw [decide_eq_false hk']
        simp only [cond_false]
        exact ih
    · rw [if_neg hk]
      rw [List.find?_cons, List.find?_cons]
      by_cases hk' : kv.1 = name'
      · rw [decide_eq_true hk']
        simp only [cond_true, Option.map_some']
        rw [if_neg (by rw [← hk']; exact fun e => hk e)]
      · rw [decide_eq_false hk']
        simp only [cond_false]
        exact ih

theorem hasName_get?_isSome (qs : Quregs) (name : String)
    (h : Quregs.hasName qs name = true) : ∃ cs, Quregs.get? qs name = some cs := by
  unfold Quregs.hasName at h
  unfold Quregs.get?
  obtain ⟨kv, hkv, hp⟩ := List.any_eq_true.mp h
  have hsome : (qs.find? (fun kv => decide (kv.1 = name))).isSome :=
    List.find?_isSome.mpr ⟨kv, hkv, hp⟩
  obtain ⟨e, he⟩ := Option.isSome_iff_exists.mp hsome
  exact ⟨e.2, by rw [he]; rfl⟩

theorem quregs_cell_setCell_self (qs : Quregs) (name : String) (idx : Idx) (v : List Qubit)
    (h : Quregs.hasName qs name = true) :
    Quregs.cell? (Quregs.setCell qs name idx v) name idx = some v := by
  unfold Quregs.cell?
  rw [quregs_get_setCell, if_pos rfl]
  obtain ⟨cs, hg⟩ := hasName_get?_isSome qs name h
  rw [hg]
  simp [cells_get_set_self]

theorem quregs_cell_setCell_ne (qs : Quregs) (name name' : String) (idx idx' : Idx)
    (v : List Qubit) (h : ¬ (name' = name ∧ idx' = idx)) :
    Quregs.cell? (Quregs.setCell qs name idx v) name' idx' = Quregs.cell? qs name' idx' := by
  unfold Quregs.cell?
  rw [quregs_get_setCell]
  by_cases hn : name' = name
  · rw [if_pos hn]
    have hidx : idx' ≠ idx := fun e => h ⟨hn, e⟩
    cases hg : Quregs.get? qs name' with
    | none => rfl
    | some cs =>
      simp only [Option.map_some', Option.some_bind]
      exact cells_get_set_ne cs idx idx' v hidx
  · rw [if_neg hn]

theorem hasName_setCell (qs : Quregs) (name name' : String) (idx : Idx) (v : List Qubit) :
    Quregs.hasName (Quregs.setCell qs name idx v) name' = Quregs.hasName qs name' := by
  unfold Quregs.setCell Quregs.hasName
  induction qs with
  | nil => rfl
  | cons kv rest ih =>
    rw [List.map_cons, List.any_cons, List.any_cons, ih]
    by_cases h : kv.1 = name
    · rw [if_pos h]
    · rw [if_neg h]

/-- Effect of the rename loop on a batch of moves with distinct sources,
distinct targets, and no source equal to any target: each binding is
relocated from its source key to its target key. -/
theorem track_moves (moves : List (Soquet × Soquet × QReg)) :
    ∀ (m : QMap),
      (∀ mv ∈ moves, m mv.1 = some mv.2.2) →
      (moves.map (·.1)).Nodup →
      (moves.map (·.2.1)).Nodup →
      (∀ mv mv', mv ∈ moves → mv' ∈ moves → mv.1 ≠ mv'.2.1) →
      trackSoqNameChanges (moves.map (fun mv => ⟨mv.1, mv.2.1⟩)) m =
        .ok (fun s =>
          match moves.find? (fun mv => decide (s = mv.2.1)) with
          | some mv => some mv.2.2
          | none =>
            if moves.any (fun mv => decide (s = mv.1)) then none else m s) := by
  induction moves with
  | nil =>
    intro m _ _ _ _
    unfold trackSoqNameChanges
    simp only [List.map_nil, List.foldlM_nil]
    have hfn : (fun s =>
        match ([] : List (Soquet × Soquet × QReg)).find? (fun mv => decide (s = mv.2.1)) with
        | some mv => some mv.2.2
        | none =>
          if ([] : List (Soquet × Soquet × QReg)).any (fun mv => decide (s = mv.1))
          then none else m s) = m := by
      funext s
      rfl
    rw [hfn]
    rfl
  | cons mv₀ rest ih =>
    intro m hval hsrc htgt hdisj
    unfold trackSoqNameChanges at ih ⊢
    rw [List.map_cons, List.foldlM_cons]
    have hv₀ := hval mv₀ (List.mem_cons_self _ _)
    rw [trackStep_of_some m ⟨mv₀.1, mv₀.2.1⟩ mv₀.2.2 hv₀, exceptBind_ok]
    have hne_src : ∀ mv ∈ rest, mv.1 ≠ mv₀.1 := by
      intro mv hmv e
      exact (List.nodup_cons.mp hsrc).1 (List.mem_map.mpr ⟨mv, hmv, e⟩)
    have hne_tgt : ∀ mv ∈ rest, mv.1 ≠ mv₀.2.1 := by
      intro mv hmv
      exact hdisj mv mv₀ (List.mem_cons_of_mem _ hmv) (List.mem_cons_self _ _)
    have hs₀t₀ : mv₀.1 ≠ mv₀.2.1 :=
      hdisj mv₀ mv₀ (List.mem_cons_self _ _) (List.mem_cons_self _ _)
    have hm₁ : ∀ mv ∈ rest,
        QMap.erase (QMap.update m mv₀.2.1 mv₀.2.2) mv₀.1 mv.1 = some mv.2.2 := by
      intro mv hmv
      unfold QMap.erase QMap.update
      rw [if_neg (hne_src mv hmv), if_neg (hne_tgt mv hmv)]
      exact hval mv (List.mem_cons_of_mem _ hmv)
    have hih := ih (QMap.erase (QMap.update m mv₀.2.1 mv₀.2.2) mv₀.1) hm₁
      (List.nodup_cons.mp hsrc).2 (List.nodup_cons.mp htgt).2
      (fun mv mv' h1 h2 =>
        hdisj mv mv' (List.mem_cons_of_mem _ h1) (List.mem_cons_of_mem _ h2))
    dsimp only
    rw [hih]
    congr 1
    funext s
    rw [List.find?_cons, List.any_cons]
    by_cases ht₀ : s = mv₀.2.1
    · rw [decide_eq_true ht₀]
      simp only [cond_true]
      have hfr : rest.find? (fun mv => decide (s = mv.2.1)) = none := by
        apply List.find?_eq_none.mpr
        intro mv hmv hp
        have he : s = mv.2.1 := of_decide_eq_true hp
        refine (List.nodup_cons.mp htgt).1 ?_
        refine List.mem_map.mpr ⟨mv, hmv, ?_⟩
        rw [← he, ht₀]
      have har : rest.any (fun mv => decide (s = mv.1)) = false := by
        rw [List.any_eq_false]
        intro mv hmv hp
        have he : s = mv.1 := of_decide_eq_true hp
        exact hne_tgt mv hmv (by rw [← he, ht₀])
      rw [hfr, har]
      simp only [if_false, Bool.false_eq_true]
      unfold QMap.erase QMap.update
      rw [if_neg (fun e => hs₀t₀ (by rw [← e, ht₀])), if_pos ht₀]
    · rw [decide_eq_false ht₀]
      simp only [cond_false]
      cases hf : rest.find? (fun mv => decide (s = mv.2.1)) with
      | some mv => rfl
      | none =>
        show (if (rest.any fun mv => decide (s = mv.1)) = true then none
            else QMap.erase (QMap.update m mv₀.2.1 mv₀.2.2) mv₀.1 s) =
          (if (decide (s = mv₀.1) || rest.any fun mv => decide (s = mv.1)) = true then none
            else m s)
        by_cases hs₀ : s = mv₀.1
        · have har : rest.any (fun mv => decide (s = mv.1)) = false := by
            rw [List.any_eq_false]
            intro mv hmv hp
            exact hne_src mv hmv (by rw [← of_decide_eq_true hp, hs₀])
          simp [har, hs₀, QMap.erase, QMap.update]
        · cases har : rest.any (fun mv => decide (s = mv.1)) with
          | true => simp [har]
          | false => simp [har, hs₀, ht₀, QMap.erase, QMap.update]

theorem find?_append {α : Type} (l₁ l₂ : List α) (p : α → Bool) :
    (l₁ ++ l₂).find? p =
      match l₁.find? p with
      | some x => some x
      | none => l₂.find? p := by
  induction l₁ with
  | nil => rfl
  | cons x rest ih =>
    rw [List.cons_append, List.find?_cons, List.find?_cons]
    cases hp : p x with
    | true => rfl
    | false => exact ih

theorem flatten_singletons {α β : Type} (l : List α) (g : α → β) :
    (l.map (fun x => [g x])).flatten = l.map g := by
  induction l with
  | nil => rfl
  | cons x rest ih =>
    rw [List.map_cons, List.map_cons, List.flatten_cons, ih]
    rfl

theorem getD_mem {α : Type} (l : List α) (d : α) (p : Nat) (hp : p < l.length) :
    l.getD p d ∈ l := by
  rw [List.getD_eq_getElem _ _ hp]
  exact List.getElem_mem _

theorem filter_flatMap {α β : Type} (l : List α) (f : α → List β) (p : β → Bool) :
    (l.flatMap f).filter p = l.flatMap (fun x => (f x).filter p) := by
  induction l with
  | nil => rfl
  | cons x rest ih =>
    rw [List.flatMap_cons, List.flatMap_cons, List.filter_append, ih]

theorem flatMap_single {α : Type} (f : Nat → List α) :
    ∀ (n i : Nat), i < n → (∀ j < n, j ≠ i → f j = []) →
      (List.range n).flatMap f = f i := by
  intro n
  induction n with
  | zero =>
    intro i hi
    cases hi
  | succ n ih =>
    intro i hi hf
    rw [List.range_succ, List.flatMap_append, List.flatMap_cons, List.flatMap_nil,
      List.append_nil]
    by_cases hin : i = n
    · have hnil : (List.range n).flatMap f = [] := by
        rw [List.flatMap_eq_nil_iff]
        intro j hj
        have hjn := List.mem_range.mp hj
        exact hf j (Nat.lt_succ_of_lt hjn)
          (fun e => by rw [e, hin] at hjn; exact Nat.lt_irrefl n hjn)
      rw [hnil, List.nil_append, hin]
    · have hlt : i < n := Nat.lt_of_le_of_ne (Nat.lt_succ_iff.mp hi) hin
      rw [ih i hlt (fun j hj hne => hf j (Nat.lt_succ_of_lt hj) hne),
        hf n (Nat.lt_succ_self n) (fun e => hin e.symm), List.append_nil]

theorem predCxnsOf_impGraph_binst (ops : List CirqOp) (i : Nat) (hi : i < ops.length) :
    predCxnsOf (impGraph ops) (.binst i) = opCxns ops (firstUses ops) i := by
  unfold predCxnsOf impGraph impCxns
  rw [List.filter_append, filter_flatMap]
  have hrd : (rdCxns ops (firstUses ops)).filter
      (fun c => decide (c.right.binst = BinstNode.binst i)) = [] := by
    rw [List.filter_eq_nil_iff]
    intro c hc
    unfold rdCxns at hc
    rcases List.mem_map.mp hc with ⟨p, -, rfl⟩
    simp
  rw [hrd, List.append_nil]
  have hsingle := flatMap_single
    (fun i' => (opCxns ops (firstUses ops) i').filter
      (fun c => decide (c.right.binst = BinstNode.binst i)))
    ops.length i hi ?_
  · rw [hsingle]
    rw [List.filter_eq_self]
    intro c hc
    unfold opCxns at hc
    rcases List.mem_map.mp hc with ⟨j, -, rfl⟩
    simp
  · intro j hj hne
    rw [List.filter_eq_nil_iff]
    intro c hc
    unfold opCxns at hc
    rcases List.mem_map.mp hc with ⟨j', -, rfl⟩
    simp [hne]

theorem predCxnsOf_impGraph_rd (ops : List CirqOp) :
    predCxnsOf (impGraph ops) .rightDangle = rdCxns ops (firstUses ops) := by
  unfold predCxnsOf impGraph impCxns
  rw [List.filter_append, filter_flatMap]
  have hops : (List.range ops.length).flatMap
      (fun i' => (opCxns ops (firstUses ops) i').filter
        (fun c => decide (c.right.binst = BinstNode.rightDangle))) = [] := by
    rw [List.flatMap_eq_nil_iff]
    intro i' _
    rw [List.filter_eq_nil_iff]
    intro c hc
    unfold opCxns at hc
    rcases List.mem_map.mp hc with ⟨j, -, rfl⟩
    simp
  rw [hops, List.nil_append, List.filter_eq_self]
  intro c hc
  unfold rdCxns at hc
  rcases List.mem_map.mp hc with ⟨p, -, rfl⟩
  simp

theorem impCxns_left_binst (ops : List CirqOp) (Q : List Qubit) (c : Cxn)
    (hc : c ∈ impCxns ops Q) (i : Nat) (hb : c.left.binst = BinstNode.binst i) :
    c.left.reg = opReg (ops.getD i dummyOp).qubits.length := by
  unfold impCxns at hc
  have hleft : ∃ i' q, c.left = prevSoq ops Q i' q := by
    rcases List.mem_append.mp hc with hc | hc
    · rcases List.mem_flatMap.mp hc with ⟨i', -, hc⟩
      unfold opCxns at hc
      rcases List.mem_map.mp hc with ⟨j, -, rfl⟩
      exact ⟨i', _, rfl⟩
    · unfold rdCxns at hc
      rcases List.mem_map.mp hc with ⟨p, -, rfl⟩
      exact ⟨ops.length, _, rfl⟩
  obtain ⟨i', q, hcl⟩ := hleft
  rcases prevSoq_binst_facts ops Q i' q with ⟨i'', j'', -, -, -, hp⟩ | ⟨-, hp⟩
  · rw [hcl, hp] at hb ⊢
    have hii : i'' = i := by simpa using hb
    rw [hii]
  · rw [hcl, hp] at hb
    cases hb

theorem succ_thru_id (cxns : List Cxn) :
    ∀ (outQ : Quregs) (m : QMap),
      (∀ c ∈ cxns, c.left.reg.side = Side.thru ∧
        Quregs.hasName outQ c.left.reg.name = true) →
      processSuccCxns outQ cxns m = .ok m := by
  induction cxns with
  | nil =>
    intro outQ m _
    rfl
  | cons c rest ih =>
    intro outQ m h
    unfold processSuccCxns at ih ⊢
    rw [List.foldlM_cons]
    have hc := h c (List.mem_cons_self _ _)
    have hstep : processSuccCxn outQ m c = .ok m := by
      unfold processSuccCxn
      rw [if_pos hc.2, if_neg (by rw [hc.1]; decide)]
    rw [hstep, exceptBind_ok]
    exact ih outQ m (fun c' hc' => h c' (List.mem_cons_of_mem _ hc'))

theorem pred_fold_exact (cxns : List Cxn) :
    ∀ (inq : Quregs) (m : QMap) (v : Cxn → QReg),
      cxns.Nodup →
      (∀ c ∈ cxns, c.right.reg.side = Side.thru) →
      (∀ c ∈ cxns, Quregs.hasName inq c.right.reg.name = true) →
      (∀ c ∈ cxns, m c.right = some (v c)) →
      (∀ c ∈ cxns, ∀ c' ∈ cxns, c ≠ c' →
        ¬(c.right.reg.name = c'.right.reg.name ∧ c.right.idx = c'.right.idx)) →
      ∃ inq', processPredCxns cxns (inq, m) = .ok (inq', m) ∧
        (∀ name, Quregs.hasName inq' name = Quregs.hasName inq name) ∧
        (∀ c ∈ cxns, Quregs.cell? inq' c.right.reg.name c.right.idx = some (v c).qubits) ∧
        (∀ name idx, (∀ c ∈ cxns, ¬(c.right.reg.name = name ∧ c.right.idx = idx)) →
          Quregs.cell? inq' name idx = Quregs.cell? inq name idx) := by
  induction cxns with
  | nil =>
    intro inq m v _ _ _ _ _
    refine ⟨inq, rfl, fun _ => rfl, ?_, fun _ _ _ => rfl⟩
    intro c hc
    cases hc
  | cons c₀ rest ih =>
    intro inq m v hnodup hthru hname hval hdist
    unfold processPredCxns at ih ⊢
    rw [List.foldlM_cons]
    have hstep : processPredCxn c₀ (inq, m) =
        .ok (Quregs.setCell inq c₀.right.reg.name c₀.right.idx (v c₀).qubits, m) := by
      have h1 := hval c₀ (List.mem_cons_self _ _)
      have h2 := hname c₀ (List.mem_cons_self _ _)
      have h3 : ¬ c₀.right.reg.side = Side.left := by
        rw [hthru c₀ (List.mem_cons_self _ _)]
        decide
      simp only [processPredCxn, h1, h2, if_true, if_neg h3]
    rw [hstep, exceptBind_ok]
    obtain ⟨inq', hp, hn, hcells, hframe⟩ :=
      ih (Quregs.setCell inq c₀.right.reg.name c₀.right.idx (v c₀).qubits) m v
        (List.nodup_cons.mp hnodup).2
        (fun c hc => hthru c (List.mem_cons_of_mem _ hc))
        (fun c hc => by
          rw [hasName_setCell]
          exact hname c (List.mem_cons_of_mem _ hc))
        (fun c hc => hval c (List.mem_cons_of_mem _ hc))
        (fun c hc c' hc' hne =>
          hdist c (List.mem_cons_of_mem _ hc) c' (List.mem_cons_of_mem _ hc') hne)
    refine ⟨inq', hp, ?_, ?_, ?_⟩
    · intro name
      rw [hn name, hasName_setCell]
    · intro c hc
      rcases List.mem_cons.mp hc with rfl | hcr
      · have hne : ∀ c' ∈ rest, ¬(c'.right.reg.name = c.right.reg.name ∧
            c'.right.idx = c.right.idx) := by
          intro c' hc' hpair
          have hcc' : c ≠ c' := by
            intro e
            exact (List.nodup_cons.mp hnodup).1 (e ▸ hc')
          exact hdist c (List.mem_cons_self _ _) c' (List.mem_cons_of_mem _ hc')
            hcc' ⟨hpair.1.symm, hpair.2.symm⟩
        rw [hframe c.right.reg.name c.right.idx hne]
        exact quregs_cell_setCell_self inq c.right.reg.name c.right.idx (v c).qubits
          (hname c (List.mem_cons_self _ _))
      · exact hcells c hcr
    · intro name idx hall
      rw [hframe name idx (fun c hc => hall c (List.mem_cons_of_mem _ hc))]
      refine quregs_cell_setCell_ne inq c₀.right.reg.name name c₀.right.idx idx
        (v c₀).qubits ?_
      intro ⟨h1, h2⟩
      exact hall c₀ (List.mem_cons_self _ _) ⟨h1.symm, h2.symm⟩

theorem finalCells_compute (m : QMap) (reg : Register) (idxs : List Idx)
    (w : Idx → List Qubit) :
    ∀ (acc : Cells),
      (∀ idx ∈ idxs, ∃ qr, m ⟨BinstNode.rightDangle, reg, idx⟩ = some qr ∧
        qr.qubits = w idx) →
      idxs.foldlM (finalCell m reg) acc = .ok (acc ++ idxs.map (fun idx => (idx, w idx))) := by
  induction idxs with
  | nil =>
    intro acc _
    simp only [List.foldlM_nil, List.map_nil, List.append_nil]
    rfl
  | cons idx₀ rest ih =>
    intro acc hcov
    rw [List.foldlM_cons]
    obtain ⟨qr, hqr, hqrw⟩ := hcov idx₀ (List.mem_cons_self _ _)
    have hstep : finalCell m reg acc idx₀ = .ok (acc ++ [(idx₀, w idx₀)]) := by
      simp only [finalCell, hqr, hqrw]
    rw [hstep, exceptBind_ok,
      ih (acc ++ [(idx₀, w idx₀)]) (fun idx hidx => hcov idx (List.mem_cons_of_mem _ hidx))]
    rw [List.map_cons, List.append_assoc]
    rfl

theorem initReg_compute (quregs : Quregs) (reg : Register) (idxs : List Idx)
    (w : Idx → List Qubit) :
    ∀ (m : QMap), idxs.Nodup →
      (∀ idx ∈ idxs, Quregs.cell? quregs reg.name idx = some (w idx)) →
      idxs.foldlM (initRegCell quregs reg) m =
        .ok (fun s =>
          match idxs.find? (fun idx => decide (s = ⟨BinstNode.leftDangle, reg, idx⟩)) with
          | some idx => some ⟨w idx, reg.dtype⟩
          | none => m s) := by
  induction idxs with
  | nil =>
    intro m _ _
    simp only [List.foldlM_nil]
    have hfn : (fun s =>
        match ([] : List Idx).find?
            (fun idx => decide (s = ⟨BinstNode.leftDangle, reg, idx⟩)) with
        | some idx => some ⟨w idx, reg.dtype⟩
        | none => m s) = m := by
      funext s
      rfl
    rw [hfn]
    rfl
  | cons idx₀ rest ih =>
    intro m hnd hcells
    rw [List.foldlM_cons]
    have hstep : initRegCell quregs reg m idx₀ =
        .ok (QMap.update m ⟨.leftDangle, reg, idx₀⟩ ⟨w idx₀, reg.dtype⟩) := by
      unfold initRegCell
      rw [hcells idx₀ (List.mem_cons_self _ _)]
    rw [hstep, exceptBind_ok,
      ih _ (List.nodup_cons.mp hnd).2 (fun idx hidx => hcells idx (List.mem_cons_of_mem _ hidx))]
    congr 1
    funext s
    rw [List.find?_cons]
    by_cases h₀ : s = ⟨BinstNode.leftDangle, reg, idx₀⟩
    · rw [decide_eq_true h₀]
      simp only [cond_true]
      have hfr : rest.find? (fun idx => decide (s = ⟨BinstNode.leftDangle, reg, idx⟩)) =
          none := by
        apply List.find?_eq_none.mpr
        intro idx hidx hp
        have he := of_decide_eq_true hp
        rw [h₀] at he
        have hii : idx₀ = idx := by
          have := congrArg Soquet.idx he
          simpa using this
        exact (List.nodup_cons.mp hnd).1 (hii ▸ hidx)
      rw [hfr]
      unfold QMap.update
      rw [if_pos h₀]
    · rw [decide_eq_false h₀]
      simp only [cond_false]
      cases hf : rest.find? (fun idx => decide (s = ⟨BinstNode.leftDangle, reg, idx⟩)) with
      | some idx => rfl
      | none =>
        unfold QMap.update
        rw [if_neg h₀]

theorem cells_get_keys (w : Nat → List Qubit) (ks : List Nat) :
    ∀ (p₀ : Nat), p₀ ∈ ks →
      Cells.get? (ks.map (fun p => ([p], w p))) [p₀] = some (w p₀) := by
  induction ks with
  | nil =>
    intro p₀ h
    cases h
  | cons k rest ih =>
    intro p₀ h
    rw [List.map_cons]
    unfold Cells.get?
    rw [List.find?_cons]
    by_cases hk : k = p₀
    · rw [decide_eq_true (show ([k], w k).1 = [p₀] by rw [hk])]
      simp only [cond_true, Option.map_some']
      rw [hk]
    · rw [decide_eq_false (show ¬ ([k], w k).1 = [p₀] by simp [hk])]
      simp only [cond_false]
      have hp₀ : p₀ ∈ rest := by
        rcases List.mem_cons.mp h with rfl | h
        · exact absurd rfl hk
        · exact h
      exact ih p₀ hp₀

theorem impMapAt_prevSoq (ops : List CirqOp) (Q : List Qubit) (i : Nat) (hnd : Q.Nodup)
    (q : Qubit) (hq : q ∈ Q) :
    impMapAt ops Q i (prevSoq ops Q i q) = some ⟨[q], qbitDType⟩ := by
  unfold impMapAt
  obtain ⟨hlt, hget⟩ := getD_findIdx_mem Q q hq
  cases hf : (List.range Q.length).find?
      (fun p => decide (prevSoq ops Q i q = prevSoq ops Q i (Q.getD p 0))) with
  | none =>
    exfalso
    have hnone := List.find?_eq_none.mp hf (Q.findIdx (fun x => decide (x = q)))
      (List.mem_range.mpr hlt)
    apply hnone
    rw [hget]
    simp
  | some p =>
    have hp := List.find?_some hf
    have hplt : p < Q.length := List.mem_range.mp (List.mem_of_find?_eq_some hf)
    have he : prevSoq ops Q i q = prevSoq ops Q i (Q.getD p 0) := of_decide_eq_true hp
    have hqq : q = Q.getD p 0 :=
      prevSoq_inj ops Q i hnd q (Q.getD p 0) hq (getD_mem Q 0 p hplt) he
    show some (⟨[Q.getD p 0], qbitDType⟩ : QReg) = some (⟨[q], qbitDType⟩ : QReg)
    rw [hqq]

theorem impMapAt_off (ops : List CirqOp) (Q : List Qubit) (i : Nat) (s : Soquet)
    (h : ∀ p, p < Q.length → s ≠ prevSoq ops Q i (Q.getD p 0)) :
    impMapAt ops Q i s = none := by
  unfold impMapAt
  have hf : (List.range Q.length).find?
      (fun p => decide (s = prevSoq ops Q i (Q.getD p 0))) = none := by
    apply List.find?_eq_none.mpr
    intro p hp hdec
    exact h p (List.mem_range.mp hp) (of_decide_eq_true hdec)
  rw [hf]

theorem find?_unique {α : Type} (l : List α) (p : α → Bool) (x : α) (hx : x ∈ l)
    (hpx : p x = true) (huniq : ∀ y ∈ l, p y = true → y = x) :
    l.find? p = some x := by
  induction l with
  | nil => cases hx
  | cons a rest ih =>
    rw [List.find?_cons]
    cases hpa : p a with
    | true =>
      simp only [cond_true]
      exact congrArg some (huniq a (List.mem_cons_self _ _) hpa)
    | false =>
      simp only [cond_false]
      have hx' : x ∈ rest := by
        rcases List.mem_cons.mp hx with rfl | h
        · cases hpx.symm.trans hpa
        · exact h
      exact ih hx' (fun y hy hp => huniq y (List.mem_cons_of_mem _ hy) hp)

theorem find?_over_map {α β : Type} (f : α → β) (l : List α) (p : β → Bool) :
    (l.map f).find? p = (l.find? (fun a => p (f a))).map f := by
  induction l with
  | nil => rfl
  | cons x rest ih =>
    rw [List.map_cons, List.find?_cons, List.find?_cons]
    cases hp : p (f x) with
    | true => rfl
    | false => exact ih

theorem getD_inj_nodup (Q : List Qubit) (hnd : Q.Nodup) (p p' : Nat)
    (hp : p < Q.length) (hp' : p' < Q.length) (h : Q.getD p 0 = Q.getD p' 0) : p = p' := by
  have h1 := findIdx_getD_nodup Q hnd p hp
  have h2 := findIdx_getD_nodup Q hnd p' hp'
  rw [h] at h1
  exact h1.symm.trans h2

theorem prevSoq_binst_lt (ops : List CirqOp) (Q : List Qubit) (i : Nat) (q : Qubit)
    (i' : Nat) (h : (prevSoq ops Q i q).binst = BinstNode.binst i') : i' < i := by
  rcases prevSoq_binst_facts ops Q i q with ⟨i1, j1, -, hlt, -, hp⟩ | ⟨-, hp⟩
  · rw [hp] at h
    have hii : i1 = i' := by simpa using h
    rw [← hii]
    exact hlt
  · rw [hp] at h
    cases h

theorem prevSoq_zero (ops : List CirqOp) (Q : List Qubit) (q : Qubit) :
    prevSoq ops Q 0 q =
      ⟨.leftDangle, qubitsReg Q.length, [Q.findIdx (fun x => decide (x = q))]⟩ := rfl

/-- The per-instance renames `opCxns`, paired with the `_QReg` each rename
relocates. -/
def opMoves (ops : List CirqOp) (Q : List Qubit) (i : Nat) : List (Soquet × Soquet × QReg) :=
  (List.range (ops.getD i dummyOp).qubits.length).map
    (fun j => (prevSoq ops Q i ((ops.getD i dummyOp).qubits.getD j 0),
      (⟨.binst i, opReg (ops.getD i dummyOp).qubits.length, [j]⟩ : Soquet),
      (⟨[(ops.getD i dummyOp).qubits.getD j 0], qbitDType⟩ : QReg)))

theorem opMoves_cxns (ops : List CirqOp) (Q : List Qubit) (i : Nat) :
    (opMoves ops Q i).map (fun mv => (⟨mv.1, mv.2.1⟩ : Cxn)) = opCxns ops Q i := by
  unfold opMoves opCxns
  rw [List.map_map]
  rfl

/-- The boundary retirement renames `rdCxns`, paired with their `_QReg`s. -/
def rdMoves (ops : List CirqOp) (Q : List Qubit) : List (Soquet × Soquet × QReg) :=
  (List.range Q.length).map
    (fun p => (prevSoq ops Q ops.length (Q.getD p 0),
      (⟨.rightDangle, qubitsReg Q.length, [p]⟩ : Soquet),
      (⟨[Q.getD p 0], qbitDType⟩ : QReg)))

theorem rdMoves_cxns (ops : List CirqOp) (Q : List Qubit) :
    (rdMoves ops Q).map (fun mv => (⟨mv.1, mv.2.1⟩ : Cxn)) = rdCxns ops Q := by
  unfold rdMoves rdCxns
  rw [List.map_map]
  rfl

/-- The binding map after the boundary retirement: each referenced qubit held
at its `RightDangle` boundary cell. -/
def finalMap (ops : List CirqOp) : QMap :=
  fun s =>
    match (List.range (firstUses ops).length).find?
        (fun p => decide (s = ⟨.rightDangle, qubitsReg (firstUses ops).length, [p]⟩)) with
    | some p => some ⟨[(firstUses ops).getD p 0], qbitDType⟩
    | none => none

theorem trackSoq_opCxns (ops : List CirqOp) (Q : List Qubit) (i : Nat)
    (hQN : Q.Nodup)
    (hopnd : (ops.getD i dummyOp).qubits.Nodup)
    (hmem : ∀ q ∈ (ops.getD i dummyOp).qubits, q ∈ Q) :
    trackSoqNameChanges (opCxns ops Q i) (impMapAt ops Q i) = .ok (impMapAt ops Q (i + 1)) := by
  have hqb : ∀ j, j < (ops.getD i dummyOp).qubits.length →
      (ops.getD i dummyOp).qubits.getD j 0 ∈ Q :=
    fun j hj => hmem _ (getD_mem _ 0 j hj)
  have husesj : ∀ j, j < (ops.getD i dummyOp).qubits.length →
      usesIn (ops.getD i dummyOp).qubits ((ops.getD i dummyOp).qubits.getD j 0) = some j :=
    fun j hj => usesIn_getD_nodup _ hopnd j hj
  have hval : ∀ mv ∈ opMoves ops Q i, impMapAt ops Q i mv.1 = some mv.2.2 := by
    intro mv hmv
    unfold opMoves at hmv
    rcases List.mem_map.mp hmv with ⟨j, hj, rfl⟩
    exact impMapAt_prevSoq ops Q i hQN _ (hqb j (List.mem_range.mp hj))
  have hsrc : ((opMoves ops Q i).map (·.1)).Nodup := by
    unfold opMoves
    rw [List.map_map]
    refine List.Nodup.map_on ?_ (List.nodup_range _)
    intro j hj j' hj' he
    have he' : prevSoq ops Q i ((ops.getD i dummyOp).qubits.getD j 0) =
        prevSoq ops Q i ((ops.getD i dummyOp).qubits.getD j' 0) := he
    have hq := prevSoq_inj ops Q i hQN _ _ (hqb j (List.mem_range.mp hj))
      (hqb j' (List.mem_range.mp hj')) he'
    have u1 := husesj j (List.mem_range.mp hj)
    have u2 := husesj j' (List.mem_range.mp hj')
    rw [hq] at u1
    exact Option.some.inj (u1.symm.trans u2)
  have htgt : ((opMoves ops Q i).map (·.2.1)).Nodup := by
    unfold opMoves
    rw [List.map_map]
    refine List.Nodup.map_on ?_ (List.nodup_range _)
    intro j hj j' hj' he
    have he' : (⟨.binst i, opReg (ops.getD i dummyOp).qubits.length, [j]⟩ : Soquet) =
        ⟨.binst i, opReg (ops.getD i dummyOp).qubits.length, [j']⟩ := he
    have hx := congrArg Soquet.idx he'
    simpa using hx
  have hdisj : ∀ mv mv', mv ∈ opMoves ops Q i → mv' ∈ opMoves ops Q i →
      mv.1 ≠ mv'.2.1 := by
    intro mv mv' hmv hmv' he
    unfold opMoves at hmv hmv'
    rcases List.mem_map.mp hmv with ⟨j, hj, rfl⟩
    rcases List.mem_map.mp hmv' with ⟨j', hj', rfl⟩
    have hb : (prevSoq ops Q i ((ops.getD i dummyOp).qubits.getD j 0)).binst =
        BinstNode.binst i := by
      rw [show prevSoq ops Q i ((ops.getD i dummyOp).qubits.getD j 0) =
        (⟨.binst i, opReg (ops.getD i dummyOp).qubits.length, [j']⟩ : Soquet) from he]
    exact Nat.lt_irrefl i (prevSoq_binst_lt ops Q i _ i hb)
  have htm := track_moves (opMoves ops Q i) (impMapAt ops Q i) hval hsrc htgt hdisj
  rw [← opMoves_cxns ops Q i, htm]
  congr 1
  funext s
  by_cases hT : ∃ j, j < (ops.getD i dummyOp).qubits.length ∧
      s = ⟨.binst i, opReg (ops.getD i dummyOp).qubits.length, [j]⟩
  · obtain ⟨j, hj, hs⟩ := hT
    have hfind : (opMoves ops Q i).find? (fun mv => decide (s = mv.2.1)) =
        some (prevSoq ops Q i ((ops.getD i dummyOp).qubits.getD j 0),
          (⟨.binst i, opReg (ops.getD i dummyOp).qubits.length, [j]⟩ : Soquet),
          (⟨[(ops.getD i dummyOp).qubits.getD j 0], qbitDType⟩ : QReg)) := by
      apply find?_unique
      · unfold opMoves
        exact List.mem_map.mpr ⟨j, List.mem_range.mpr hj, rfl⟩
      · exact decide_eq_true hs
      · intro y hy hpy
        unfold opMoves at hy
        rcases List.mem_map.mp hy with ⟨j', hj', rfl⟩
        have hs' : s = (⟨.binst i, opReg (ops.getD i dummyOp).qubits.length, [j']⟩ : Soquet) :=
          of_decide_eq_true hpy
        have hjj : j' = j := by
          have hx := congrArg Soquet.idx (hs'.symm.trans hs)
          simpa using hx
        rw [hjj]
    rw [hfind]
    show some (⟨[(ops.getD i dummyOp).qubits.getD j 0], qbitDType⟩ : QReg) =
      impMapAt ops Q (i + 1) s
    have hps : prevSoq ops Q (i + 1) ((ops.getD i dummyOp).qubits.getD j 0) =
        ⟨.binst i, opReg (ops.getD i dummyOp).qubits.length, [j]⟩ :=
      prevSoq_step_used ops Q i _ j (husesj j hj)
    rw [hs, ← hps, impMapAt_prevSoq ops Q (i + 1) hQN _ (hqb j hj)]
  · by_cases hS : ∃ j, j < (ops.getD i dummyOp).qubits.length ∧
        s = prevSoq ops Q i ((ops.getD i dummyOp).qubits.getD j 0)
    · obtain ⟨j, hj, hs⟩ := hS
      have hfind : (opMoves ops Q i).find? (fun mv => decide (s = mv.2.1)) = none := by
        apply List.find?_eq_none.mpr
        intro mv hmv hpv
        unfold opMoves at hmv
        rcases List.mem_map.mp hmv with ⟨j', hj', rfl⟩
        exact hT ⟨j', List.mem_range.mp hj', of_decide_eq_true hpv⟩
      have hany : (opMoves ops Q i).any (fun mv => decide (s = mv.1)) = true := by
        apply List.any_eq_true.mpr
        refine ⟨(prevSoq ops Q i ((ops.getD i dummyOp).qubits.getD j 0),
          (⟨.binst i, opReg (ops.getD i dummyOp).qubits.length, [j]⟩ : Soquet),
          (⟨[(ops.getD i dummyOp).qubits.getD j 0], qbitDType⟩ : QReg)), ?_, ?_⟩
        · unfold opMoves
          exact List.mem_map.mpr ⟨j, List.mem_range.mpr hj, rfl⟩
        · exact decide_eq_true hs
      rw [hfind, hany]
      show (none : Option QReg) = impMapAt ops Q (i + 1) s
      refine (impMapAt_off ops Q (i + 1) s ?_).symm
      intro p hp hsp
      cases hu : usesIn (ops.getD i dummyOp).qubits (Q.getD p 0) with
      | some j'' =>
        have hj'' := (usesIn_some _ _ _ hu).1
        rw [prevSoq_step_used ops Q i _ j'' hu] at hsp
        exact hT ⟨j'', hj'', hsp⟩
      | none =>
        rw [prevSoq_step_unused ops Q i _ hu] at hsp
        have hqq : (ops.getD i dummyOp).qubits.getD j 0 = Q.getD p 0 :=
          prevSoq_inj ops Q i hQN _ _ (hqb j hj) (getD_mem Q 0 p hp) (hs.symm.trans hsp)
        rw [← hqq] at hu
        rw [husesj j hj] at hu
        cases hu
    · have hfind : (opMoves ops Q i).find? (fun mv => decide (s = mv.2.1)) = none := by
        apply List.find?_eq_none.mpr
        intro mv hmv hpv
        unfold opMoves at hmv
        rcases List.mem_map.mp hmv with ⟨j', hj', rfl⟩
        exact hT ⟨j', List.mem_range.mp hj', of_decide_eq_true hpv⟩
      have hany : (opMoves ops Q i).any (fun mv => decide (s = mv.1)) = false := by
        rw [List.any_eq_false]
        intro mv hmv hpv
        unfold opMoves at hmv
        rcases List.mem_map.mp hmv with ⟨j, hj, rfl⟩
        exact hS ⟨j, List.mem_range.mp hj, of_decide_eq_true hpv⟩
      rw [hfind, hany]
      show impMapAt ops Q i s = impMapAt ops Q (i + 1) s
      unfold impMapAt
      have hfc : (List.range Q.length).find?
            (fun p => decide (s = prevSoq ops Q i (Q.getD p 0))) =
          (List.range Q.length).find?
            (fun p => decide (s = prevSoq ops Q (i + 1) (Q.getD p 0))) := by
        apply find?_congr
        intro p hp
        cases hu : usesIn (ops.getD i dummyOp).qubits (Q.getD p 0) with
        | some j'' =>
          have hj'' := (usesIn_some _ _ _ hu).1
          have hg := (usesIn_some _ _ _ hu).2
          rw [prevSoq_step_used ops Q i _ j'' hu]
          have h1 : ¬ s = prevSoq ops Q i (Q.getD p 0) := by
            intro he
            apply hS
            refine ⟨j'', hj'', ?_⟩
            rw [hg]
            exact he
          have h2 : ¬ s = (⟨.binst i, opReg (ops.getD i dummyOp).qubits.length,
              [j'']⟩ : Soquet) := by
            intro he
            exact hT ⟨j'', hj'', he⟩
          rw [decide_eq_false h1, decide_eq_false h2]
        | none =>
          rw [prevSoq_step_unused ops Q i _ hu]
      rw [hfc]

theorem trackSoq_rdCxns (ops : List CirqOp) :
    trackSoqNameChanges (rdCxns ops (firstUses ops))
        (impMapAt ops (firstUses ops) ops.length) = .ok (finalMap ops) := by
  have hQN := nodup_firstUses ops
  have hval : ∀ mv ∈ rdMoves ops (firstUses ops),
      impMapAt ops (firstUses ops) ops.length mv.1 = some mv.2.2 := by
    intro mv hmv
    unfold rdMoves at hmv
    rcases List.mem_map.mp hmv with ⟨p, hp, rfl⟩
    exact impMapAt_prevSoq ops (firstUses ops) ops.length hQN _
      (getD_mem _ 0 p (List.mem_range.mp hp))
  have hsrc : ((rdMoves ops (firstUses ops)).map (·.1)).Nodup := by
    unfold rdMoves
    rw [List.map_map]
    refine List.Nodup.map_on ?_ (List.nodup_range _)
    intro p hp p' hp' he
    have he' : prevSoq ops (firstUses ops) ops.length ((firstUses ops).getD p 0) =
        prevSoq ops (firstUses ops) ops.length ((firstUses ops).getD p' 0) := he
    have hq := prevSoq_inj ops (firstUses ops) ops.length hQN _ _
      (getD_mem _ 0 p (List.mem_range.mp hp)) (getD_mem _ 0 p' (List.mem_range.mp hp')) he'
    exact getD_inj_nodup (firstUses ops) hQN p p' (List.mem_range.mp hp)
      (List.mem_range.mp hp') hq
  have htgt : ((rdMoves ops (firstUses ops)).map (·.2.1)).Nodup := by
    unfold rdMoves
    rw [List.map_map]
    refine List.Nodup.map_on ?_ (List.nodup_range _)
    intro p hp p' hp' he
    have he' : (⟨.rightDangle, qubitsReg (firstUses ops).length, [p]⟩ : Soquet) =
        ⟨.rightDangle, qubitsReg (firstUses ops).length, [p']⟩ := he
    have hx := congrArg Soquet.idx he'
    simpa using hx
  have hdisj : ∀ mv mv', mv ∈ rdMoves ops (firstUses ops) →
      mv' ∈ rdMoves ops (firstUses ops) → mv.1 ≠ mv'.2.1 := by
    intro mv mv' hmv hmv' he
    unfold rdMoves at hmv hmv'
    rcases List.mem_map.mp hmv with ⟨p, hp, rfl⟩
    rcases List.mem_map.mp hmv' with ⟨p', hp', rfl⟩
    apply prevSoq_not_rd ops (firstUses ops) ops.length ((firstUses ops).getD p 0)
    rw [show prevSoq ops (firstUses ops) ops.length ((firstUses ops).getD p 0) =
      (⟨.rightDangle, qubitsReg (firstUses ops).length, [p']⟩ : Soquet) from he]
  have htm := track_moves (rdMoves ops (firstUses ops))
    (impMapAt ops (firstUses ops) ops.length) hval hsrc htgt hdisj
  rw [← rdMoves_cxns ops (firstUses ops), htm]
  congr 1
  funext s
  by_cases hT : ∃ p, p < (firstUses ops).length ∧
      s = ⟨.rightDangle, qubitsReg (firstUses ops).length, [p]⟩
  · obtain ⟨p, hp, hs⟩ := hT
    have hfind : (rdMoves ops (firstUses ops)).find? (fun mv => decide (s = mv.2.1)) =
        some (prevSoq ops (firstUses ops) ops.length ((firstUses ops).getD p 0),
          (⟨.rightDangle, qubitsReg (firstUses ops).length, [p]⟩ : Soquet),
          (⟨[(firstUses ops).getD p 0], qbitDType⟩ : QReg)) := by
      apply find?_unique
      · unfold rdMoves
        exact List.mem_map.mpr ⟨p, List.mem_range.mpr hp, rfl⟩
      · exact decide_eq_true hs
      · intro y hy hpy
        unfold rdMoves at hy
        rcases List.mem_map.mp hy with ⟨p', hp', rfl⟩
        have hs' : s = (⟨.rightDangle, qubitsReg (firstUses ops).length, [p']⟩ : Soquet) :=
          of_decide_eq_true hpy
        have hpp : p' = p := by
          have hx := congrArg Soquet.idx (hs'.symm.trans hs)
          simpa using hx
        rw [hpp]
    rw [hfind]
    show some (⟨[(firstUses ops).getD p 0], qbitDType⟩ : QReg) = finalMap ops s
    have hfm : (List.range (firstUses ops).length).find?
        (fun p' => decide (s = ⟨.rightDangle, qubitsReg (firstUses ops).length, [p']⟩)) =
        some p := by
      apply find?_unique
      · exact List.mem_range.mpr hp
      · exact decide_eq_true hs
      · intro p' hp' hpy
        have hs' := of_decide_eq_true hpy
        have hx := congrArg Soquet.idx (hs'.symm.trans hs)
        simpa using hx
    unfold finalMap
    rw [hfm]
  · have hfind : (rdMoves ops (firstUses ops)).find? (fun mv => decide (s = mv.2.1)) =
        none := by
      apply List.find?_eq_none.mpr
      intro mv hmv hpv
      unfold rdMoves at hmv
      rcases List.mem_map.mp hmv with ⟨p, hp, rfl⟩
      exact hT ⟨p, List.mem_range.mp hp, of_decide_eq_true hpv⟩
    have hfm : (List.range (firstUses ops).length).find?
        (fun p => decide (s = ⟨.rightDangle, qubitsReg (firstUses ops).length, [p]⟩)) =
        none := by
      apply List.find?_eq_none.mpr
      intro p hp hpv
      exact hT ⟨p, List.mem_range.mp hp, of_decide_eq_true hpv⟩
    rw [hfind]
    cases hA : (rdMoves ops (firstUses ops)).any (fun mv => decide (s = mv.1)) with
    | true =>
      show (none : Option QReg) = finalMap ops s
      unfold finalMap
      rw [hfm]
    | false =>
      show impMapAt ops (firstUses ops) ops.length s = finalMap ops s
      have hoff : impMapAt ops (firstUses ops) ops.length s = none := by
        apply impMapAt_off
        intro p hp hsp
        have hall := List.any_eq_false.mp hA
        exact absurd (decide_eq_true hsp)
          (hall _ (by
            unfold rdMoves
            exact List.mem_map.mpr ⟨p, List.mem_range.mpr hp, rfl⟩))
      rw [hoff]
      unfold finalMap
      rw [hfm]

theorem pureBind_except {ε α β : Type} (a : α) (f : α → Except ε β) :
    ((pure a : Except ε α) >>= f) = f a := rfl

theorem checkQuregNames_imp (ops : List CirqOp) :
    checkQuregNames (impSig ops) (impQuregs ops) = .ok () := rfl

theorem initialQMap_imp (ops : List CirqOp) :
    initialQMap (leftsOf (impSig ops)) (impQuregs ops) =
      .ok (impMapAt ops (firstUses ops) 0) := by
  have hQN := nodup_firstUses ops
  have hcells : ∀ idx ∈ (List.range (firstUses ops).length).map (fun p => [p]),
      Quregs.cell? (impQuregs ops) (qubitsReg (firstUses ops).length).name idx =
        some [(firstUses ops).getD (idx.getD 0 0) 0] := by
    intro idx hidx
    rcases List.mem_map.mp hidx with ⟨p, hp, rfl⟩
    show Quregs.cell? (impQuregs ops) "qubits" [p] = some [(firstUses ops).getD p 0]
    have hget : Quregs.get? (impQuregs ops) "qubits" =
        some ((List.range (firstUses ops).length).map
          (fun p => ([p], [(firstUses ops).getD p 0]))) := rfl
    show (Quregs.get? (impQuregs ops) "qubits").bind (fun cs => Cells.get? cs [p]) =
      some [(firstUses ops).getD p 0]
    rw [hget]
    show Cells.get? ((List.range (firstUses ops).length).map
      (fun p => ([p], [(firstUses ops).getD p 0]))) [p] = some [(firstUses ops).getD p 0]
    exact cells_get_keys (fun p => [(firstUses ops).getD p 0])
      (List.range (firstUses ops).length) p hp
  have hnodupidx : ((List.range (firstUses ops).length).map (fun p => [p])).Nodup := by
    refine List.Nodup.map_on ?_ (List.nodup_range _)
    intro p hp p' hp' he
    simpa using he
  have hinit := initReg_compute (impQuregs ops) (qubitsReg (firstUses ops).length)
    ((List.range (firstUses ops).length).map (fun p => [p]))
    (fun idx => [(firstUses ops).getD (idx.getD 0 0) 0]) (fun _ => none) hnodupidx hcells
  have hfold : initReg (impQuregs ops) (fun _ => none) (qubitsReg (firstUses ops).length) =
      ((List.range (firstUses ops).length).map (fun p => [p])).foldlM
        (initRegCell (impQuregs ops) (qubitsReg (firstUses ops).length)) (fun _ => none) := by
    unfold initReg
    rw [show (qubitsReg (firstUses ops).length).shape =
      [(firstUses ops).length] from rfl, allIdxs_single]
  have hlefts : leftsOf (impSig ops) = [qubitsReg (firstUses ops).length] := rfl
  unfold initialQMap
  rw [hlefts, List.foldlM_cons, hfold, hinit, exceptBind_ok, List.foldlM_nil]
  show Except.ok (fun s =>
      match ((List.range (firstUses ops).length).map (fun p => [p])).find?
          (fun idx => decide (s = ⟨BinstNode.leftDangle,
            qubitsReg (firstUses ops).length, idx⟩)) with
      | some idx => some ⟨[(firstUses ops).getD (idx.getD 0 0) 0],
          (qubitsReg (firstUses ops).length).dtype⟩
      | none => (none : Option QReg)) =
    Except.ok (impMapAt ops (firstUses ops) 0)
  congr 1
  funext s
  by_cases hT : ∃ p, p < (firstUses ops).length ∧
      s = ⟨BinstNode.leftDangle, qubitsReg (firstUses ops).length, [p]⟩
  · obtain ⟨p, hp, hs⟩ := hT
    have hfL : ((List.range (firstUses ops).length).map (fun p => [p])).find?
        (fun idx => decide (s = ⟨BinstNode.leftDangle,
          qubitsReg (firstUses ops).length, idx⟩)) = some [p] := by
      apply find?_unique
      · exact List.mem_map.mpr ⟨p, List.mem_range.mpr hp, rfl⟩
      · exact decide_eq_true hs
      · intro y hy hpy
        rcases List.mem_map.mp hy with ⟨p', hp', rfl⟩
        have hs' := of_decide_eq_true hpy
        have hx := congrArg Soquet.idx (hs'.symm.trans hs)
        simpa using hx
    have hfR : (List.range (firstUses ops).length).find?
        (fun p' => decide (s = prevSoq ops (firstUses ops) 0
          ((firstUses ops).getD p' 0))) = some p := by
      apply find?_unique
      · exact List.mem_range.mpr hp
      · apply decide_eq_true
        rw [prevSoq_zero, findIdx_getD_nodup (firstUses ops) hQN p hp]
        exact hs
      · intro p' hp' hpy
        have hs' := of_decide_eq_true hpy
        rw [prevSoq_zero, findIdx_getD_nodup (firstUses ops) hQN p'
          (List.mem_range.mp hp')] at hs'
        have hx := congrArg Soquet.idx (hs'.symm.trans hs)
        simpa using hx
    rw [hfL]
    unfold impMapAt
    rw [hfR]
    rfl
  · have hfL : ((List.range (firstUses ops).length).map (fun p => [p])).find?
        (fun idx => decide (s = ⟨BinstNode.leftDangle,
          qubitsReg (firstUses ops).length, idx⟩)) = none := by
      apply List.find?_eq_none.mpr
      intro idx hidx hpy
      rcases List.mem_map.mp hidx with ⟨p, hp, rfl⟩
      exact hT ⟨p, List.mem_range.mp hp, of_decide_eq_true hpy⟩
    have hfR : (List.range (firstUses ops).length).find?
        (fun p' => decide (s = prevSoq ops (firstUses ops) 0
          ((firstUses ops).getD p' 0))) = none := by
      apply List.find?_eq_none.mpr
      intro p hp hpy
      have hs' := of_decide_eq_true hpy
      rw [prevSoq_zero, findIdx_getD_nodup (firstUses ops) hQN p
        (List.mem_range.mp hp)] at hs'
      exact hT ⟨p, List.mem_range.mp hp, hs'⟩
    rw [hfL]
    unfold impMapAt
    rw [hfR]

theorem bloqToCirqOp_imp (ops : List CirqOp) (Q : List Qubit) (i : Nat)
    (hQN : Q.Nodup)
    (hopnd : (ops.getD i dummyOp).qubits.Nodup)
    (hmem : ∀ q ∈ (ops.getD i dummyOp).qubits, q ∈ Q)
    (succs : List Cxn)
    (hsuccs : ∀ c ∈ succs, c.left.reg = opReg (ops.getD i dummyOp).qubits.length)
    (qm : Nat) :
    bloqToCirqOp (gateBloq (ops.getD i dummyOp)) (opCxns ops Q i) succs
        (impMapAt ops Q i) qm =
      .ok ⟨some (ops.getD i dummyOp), impMapAt ops Q (i + 1), qm⟩ := by
  have husesj : ∀ j, j < (ops.getD i dummyOp).qubits.length →
      usesIn (ops.getD i dummyOp).qubits ((ops.getD i dummyOp).qubits.getD j 0) = some j :=
    fun j hj => usesIn_getD_nodup _ hopnd j hj
  have hqb : ∀ j, j < (ops.getD i dummyOp).qubits.length →
      (ops.getD i dummyOp).qubits.getD j 0 ∈ Q :=
    fun j hj => hmem _ (getD_mem _ 0 j hj)
  unfold bloqToCirqOp
  rw [trackSoq_opCxns ops Q i hQN hopnd hmem, exceptBind_ok]
  have hv : ∀ c ∈ opCxns ops Q i, impMapAt ops Q (i + 1) c.right =
      some ((fun c => (⟨[(ops.getD i dummyOp).qubits.getD (c.right.idx.getD 0 0) 0],
        qbitDType⟩ : QReg)) c) := by
    intro c hc
    unfold opCxns at hc
    rcases List.mem_map.mp hc with ⟨j, hj, rfl⟩
    show impMapAt ops Q (i + 1)
        (⟨.binst i, opReg (ops.getD i dummyOp).qubits.length, [j]⟩ : Soquet) =
      some ⟨[(ops.getD i dummyOp).qubits.getD j 0], qbitDType⟩
    rw [← prevSoq_step_used ops Q i _ j (husesj j (List.mem_range.mp hj))]
    exact impMapAt_prevSoq ops Q (i + 1) hQN _ (hqb j (List.mem_range.mp hj))
  have hnodupc : (opCxns ops Q i).Nodup := by
    unfold opCxns
    refine List.Nodup.map_on ?_ (List.nodup_range _)
    intro j hj j' hj' he
    have hx := congrArg (fun c => c.right.idx) he
    simpa using hx
  have hthru : ∀ c ∈ opCxns ops Q i, c.right.reg.side = Side.thru := by
    intro c hc
    unfold opCxns at hc
    rcases List.mem_map.mp hc with ⟨j, hj, rfl⟩
    rfl
  have hname : ∀ c ∈ opCxns ops Q i,
      Quregs.hasName (initInQuregs (gateBloq (ops.getD i dummyOp)))
        c.right.reg.name = true := by
    intro c hc
    unfold opCxns at hc
    rcases List.mem_map.mp hc with ⟨j, hj, rfl⟩
    rfl
  have hdist : ∀ c ∈ opCxns ops Q i, ∀ c' ∈ opCxns ops Q i, c ≠ c' →
      ¬(c.right.reg.name = c'.right.reg.name ∧ c.right.idx = c'.right.idx) := by
    intro c hc c' hc' hne hpair
    unfold opCxns at hc hc'
    rcases List.mem_map.mp hc with ⟨j, hj, rfl⟩
    rcases List.mem_map.mp hc' with ⟨j', hj', rfl⟩
    have hjj : j = j' := by
      have hx := hpair.2
      simpa using hx
    exact hne (by rw [hjj])
  obtain ⟨inq', hp, hn, hcells, -⟩ := pred_fold_exact (opCxns ops Q i)
    (initInQuregs (gateBloq (ops.getD i dummyOp))) (impMapAt ops Q (i + 1))
    (fun c => (⟨[(ops.getD i dummyOp).qubits.getD (c.right.idx.getD 0 0) 0],
      qbitDType⟩ : QReg))
    hnodupc hthru hname hv hdist
  rw [hp, exceptBind_ok]
  dsimp only
  have hop : (gateBloq (ops.getD i dummyOp)).asCirqOp qm inq' =
      (some (ops.getD i dummyOp), inq', qm) := by
    show (some (⟨(ops.getD i dummyOp).gate,
        ((List.range (ops.getD i dummyOp).qubits.length).map
          (fun j => (Quregs.cell? inq' "q" [j]).getD [])).flatten⟩ : CirqOp), inq', qm) =
      (some (ops.getD i dummyOp), inq', qm)
    have hqs : ((List.range (ops.getD i dummyOp).qubits.length).map
        (fun j => (Quregs.cell? inq' "q" [j]).getD [])).flatten =
        (ops.getD i dummyOp).qubits := by
      have hpt : ∀ j ∈ List.range (ops.getD i dummyOp).qubits.length,
          (Quregs.cell? inq' "q" [j]).getD [] =
            [(ops.getD i dummyOp).qubits.getD j 0] := by
        intro j hj
        have hcj := hcells (⟨prevSoq ops Q i ((ops.getD i dummyOp).qubits.getD j 0),
            ⟨.binst i, opReg (ops.getD i dummyOp).qubits.length, [j]⟩⟩ : Cxn)
          (by
            unfold opCxns
            exact List.mem_map.mpr ⟨j, hj, rfl⟩)
        rw [show Quregs.cell? inq' "q" [j] =
          some [(ops.getD i dummyOp).qubits.getD j 0] from hcj]
        rfl
      rw [List.map_congr_left hpt,
        flatten_singletons (List.range (ops.getD i dummyOp).qubits.length)
          (fun j => (ops.getD i dummyOp).qubits.getD j 0),
        getD_range_map (ops.getD i dummyOp).qubits 0]
    rw [hqs]
  rw [hop]
  dsimp only
  have hst : ∀ c ∈ succs, c.left.reg.side = Side.thru ∧
      Quregs.hasName inq' c.left.reg.name = true := by
    intro c hc
    rw [hsuccs c hc]
    refine ⟨rfl, ?_⟩
    show Quregs.hasName inq' "q" = true
    rw [hn "q"]
    rfl
  rw [succ_thru_id succs inq' (impMapAt ops Q (i + 1)) hst, exceptBind_ok]
  rfl

theorem exportStep_binst_imp (ops : List CirqOp) (hnd : ∀ op ∈ ops, op.qubits.Nodup)
    (i : Nat) (hi : i < ops.length) (acc : List CirqOp) (qm : Nat) :
    exportStep (impGraph ops) (acc, impMapAt ops (firstUses ops) i, qm) (.binst i) =
      .ok (acc ++ [ops.getD i dummyOp], impMapAt ops (firstUses ops) (i + 1), qm) := by
  have hopnd : (ops.getD i dummyOp).qubits.Nodup := hnd _ (getD_mem ops dummyOp i hi)
  have hmem : ∀ q ∈ (ops.getD i dummyOp).qubits, q ∈ firstUses ops := by
    intro q hq
    exact (mem_firstUses ops q).mpr ⟨ops.getD i dummyOp, getD_mem ops dummyOp i hi, hq⟩
  have hsuccs : ∀ c ∈ succCxnsOf (impGraph ops) (.binst i),
      c.left.reg = opReg (ops.getD i dummyOp).qubits.length := by
    intro c hc
    unfold succCxnsOf at hc
    have hcm := List.mem_filter.mp hc
    exact impCxns_left_binst ops (firstUses ops) c hcm.1 i (of_decide_eq_true hcm.2)
  show (bloqToCirqOp (gateBloq (ops.getD i dummyOp)) (predCxnsOf (impGraph ops) (.binst i))
      (succCxnsOf (impGraph ops) (.binst i)) (impMapAt ops (firstUses ops) i) qm >>=
    fun r => pure (acc ++ r.op.toList, r.m, r.qm)) =
    .ok (acc ++ [ops.getD i dummyOp], impMapAt ops (firstUses ops) (i + 1), qm)
  rw [predCxnsOf_impGraph_binst ops i hi]
  rw [bloqToCirqOp_imp ops (firstUses ops) i (nodup_firstUses ops) hopnd hmem
    (succCxnsOf (impGraph ops) (.binst i)) hsuccs qm, exceptBind_ok]
  rfl

theorem exportStep_rd_imp (ops : List CirqOp) (acc : List CirqOp) (qm : Nat) :
    exportStep (impGraph ops) (acc, impMapAt ops (firstUses ops) ops.length, qm)
        .rightDangle = .ok (acc, finalMap ops, qm) := by
  show (trackSoqNameChanges (predCxnsOf (impGraph ops) .rightDangle)
      (impMapAt ops (firstUses ops) ops.length) >>= fun m => pure (acc, m, qm)) =
    .ok (acc, finalMap ops, qm)
  rw [predCxnsOf_impGraph_rd ops, trackSoq_rdCxns ops, exceptBind_ok]
  rfl

theorem binst_fold (ops : List CirqOp) (hnd : ∀ op ∈ ops, op.qubits.Nodup) (k : Nat) :
    ∀ (i : Nat), i + k = ops.length → ∀ (acc : List CirqOp) (qm : Nat),
      ((List.range' i k).map BinstNode.binst).foldlM (exportStep (impGraph ops))
          (acc, impMapAt ops (firstUses ops) i, qm) =
        .ok (acc ++ ops.drop i, impMapAt ops (firstUses ops) ops.length, qm) := by
  induction k with
  | zero =>
    intro i hik acc qm
    have hdrop : ops.drop i = [] := List.drop_eq_nil_of_le (by omega)
    rw [hdrop, List.append_nil]
    rw [show i = ops.length from by omega]
    rfl
  | succ k ih =>
    intro i hik acc qm
    rw [List.range'_succ, List.map_cons, List.foldlM_cons]
    have hi : i < ops.length := by omega
    rw [exportStep_binst_imp ops hnd i hi acc qm, exceptBind_ok]
    rw [ih (i + 1) (by omega) (acc ++ [ops.getD i dummyOp]) qm]
    have hdrop : ops.drop i = ops.getD i dummyOp :: ops.drop (i + 1) := by
      rw [List.drop_eq_getElem_cons hi, List.getD_eq_getElem ops dummyOp hi]
    rw [hdrop, List.append_assoc]
    rfl

theorem buildOut_imp (ops : List CirqOp) :
    buildOutQuregs (impSig ops) (finalMap ops) = .ok (impQuregs ops) := by
  unfold buildOutQuregs
  rw [show rightsOf (impSig ops) = [qubitsReg (firstUses ops).length] from rfl]
  rw [List.foldlM_cons]
  have hstep : buildOutStep (finalMap ops) ([] : Quregs) (qubitsReg (firstUses ops).length) =
      .ok [("qubits", (List.range (firstUses ops).length).map
        (fun p => ([p], [(firstUses ops).getD p 0])))] := by
    unfold buildOutStep
    have hcellsres : finalQuregCells (finalMap ops) (qubitsReg (firstUses ops).length) =
        .ok ((List.range (firstUses ops).length).map
          (fun p => ([p], [(firstUses ops).getD p 0]))) := by
      unfold finalQuregCells
      rw [show (qubitsReg (firstUses ops).length).shape =
        [(firstUses ops).length] from rfl, allIdxs_single]
      have hcov : ∀ idx ∈ (List.range (firstUses ops).length).map (fun p => [p]),
          ∃ qr, finalMap ops ⟨BinstNode.rightDangle, qubitsReg (firstUses ops).length,
            idx⟩ = some qr ∧ qr.qubits = [(firstUses ops).getD (idx.getD 0 0) 0] := by
        intro idx hidx
        rcases List.mem_map.mp hidx with ⟨p, hp, rfl⟩
        refine ⟨⟨[(firstUses ops).getD p 0], qbitDType⟩, ?_, rfl⟩
        unfold finalMap
        have hfm : (List.range (firstUses ops).length).find?
            (fun p' => decide ((⟨BinstNode.rightDangle, qubitsReg (firstUses ops).length,
              [p]⟩ : Soquet) = ⟨.rightDangle, qubitsReg (firstUses ops).length, [p']⟩)) =
            some p := by
          apply find?_unique
          · exact hp
          · exact decide_eq_true rfl
          · intro p' hp' hpy
            have hs' := of_decide_eq_true hpy
            have hx := congrArg Soquet.idx hs'
            have hpp : p = p' := by simpa using hx
            exact hpp.symm
        rw [hfm]
      rw [finalCells_compute (finalMap ops) (qubitsReg (firstUses ops).length)
        ((List.range (firstUses ops).length).map (fun p => [p]))
        (fun idx => [(firstUses ops).getD (idx.getD 0 0) 0]) [] hcov]
      rw [List.nil_append, List.map_map]
      rfl
    rw [hcellsres, exceptBind_ok]
    rfl
  rw [hstep, exceptBind_ok, List.foldlM_nil]
  rfl

/-- Re-exporting the imported graph of any operation sequence (with
duplicate-free per-operation qubits) reproduces that sequence exactly, with
the output arrays equal to the boundary arrays of the import. -/
theorem reexport (ops : List CirqOp) (hnd : ∀ op ∈ ops, op.qubits.Nodup) (qm : Nat) :
    cbloqToCirqCircuit (impSig ops) (impQuregs ops) (impGraph ops) qm =
      .ok (ops, impQuregs ops) := by
  unfold cbloqToCirqCircuit
  rw [checkQuregNames_imp ops, exceptBind_ok]
  rw [initialQMap_imp ops, exceptBind_ok]
  rw [show (impGraph ops).order =
    .leftDangle :: ((List.range ops.length).map .binst ++ [.rightDangle]) from rfl]
  rw [List.foldlM_cons]
  rw [show exportStep (impGraph ops)
      (([] : List CirqOp), impMapAt ops (firstUses ops) 0, qm) .leftDangle =
    .ok (([] : List CirqOp), impMapAt ops (firstUses ops) 0, qm) from rfl]
  rw [exceptBind_ok, List.foldlM_append]
  rw [List.range_eq_range']
  rw [binst_fold ops hnd ops.length 0 (by omega) [] qm, exceptBind_ok]
  rw [List.foldlM_cons]
  rw [show (([] : List CirqOp) ++ ops.drop 0) = ops from rfl]
  rw [exportStep_rd_imp ops ops qm, exceptBind_ok, List.foldlM_nil, pureBind_except]
  dsimp only
  rw [buildOut_imp ops, exceptBind_ok]
  rfl

end RoundTrip

/-- C1: for any composite graph whose export succeeds with operation list
`ops` (each operation on duplicate-free qubits, as cirq operations are),
importing `ops` per the default-register import and re-exporting the imported
graph succeeds and yields an operation list equal — as a multiset of
operations on specific qubits (in fact equal as a list) — to the direct
export's. -/
theorem roundtrip_export (sig : List Register) (quregs : Quregs) (G : BinstGraph)
    (qm qm' : Nat) (ops : List CirqOp) (out : Quregs)
    (hexport : cbloqToCirqCircuit sig quregs G qm = .ok (ops, out))
    (hnd : ∀ op ∈ ops, op.qubits.Nodup) :
    ∃ ops' out', cbloqToCirqCircuit (RoundTrip.impSig ops) (RoundTrip.impQuregs ops)
        (RoundTrip.impGraph ops) qm' = .ok (ops', out') ∧
      Multiset.ofList ops' = Multiset.ofList ops :=
  ⟨ops, RoundTrip.impQuregs ops, RoundTrip.reexport ops hnd qm', rfl⟩

/-- The round-trip theorem instantiated on the single-CNOT export of C6's
scenario. -/
theorem roundtrip_export_witness :
    ∃ ops' out', cbloqToCirqCircuit (RoundTrip.impSig [⟨"CNOT", [0, 1]⟩])
        (RoundTrip.impQuregs [⟨"CNOT", [0, 1]⟩])
        (RoundTrip.impGraph [⟨"CNOT", [0, 1]⟩]) 0 = .ok (ops', out') ∧
      Multiset.ofList ops' = Multiset.ofList [⟨"CNOT", [0, 1]⟩] :=
  roundtrip_export cnotSig cnotQuregs cnotGraph 0 0 [⟨"CNOT", [0, 1]⟩] cnotQuregs rfl
    (by decide)

end Qualtran
